import Mathlib

/-!
# The dolphin converter: MySQL parse tree to canonical AST

A shallow embedding of `internal/engine/dolphin/convert.go`.

* The native parse tree (`pcast`, `driver`, `opcode`, `model` of the parser
  library) is embedded as inductive types that follow the Go static types:
  a field of Go type `ExprNode` is an `ExprNode` here, a field of Go type
  `ResultSetNode` is a `ResultSetNode`, and `pcast.Node` is the interface all
  of them inject into.  A nil interface value or nil pointer is the
  constructor `nil` of the type.  Only the fields that the converter or the
  tree traversal reads are kept.
* The canonical AST (`ast`, `pg`) is one inductive type `ast.Node`; a field of
  Go type `*ast.List` holds `ast.Node.List items` or `ast.Node.nil`.
* The receiver `*cc` is threaded explicitly: every method takes the context
  and returns the result together with the context it leaves behind.
* `panic` is the `Except.error` outcome.
* Go `int` is `Nat` for the parameter counter (it only ever grows by one per
  placeholder) and `Int` for source offsets.
-/

/-! ## Parser library: names, operators, column metadata -/

namespace model

/-- A case-insensitive identifier of the parser library: `O` is the original
text, `L` its lower-case form. -/
structure CIStr where
  O : String
  L : String
deriving DecidableEq, Repr

/-- The method `CIStr.String`, which returns the original text. -/
def CIStr.String (s : CIStr) : String := s.O

end model

namespace opcode

/-- The operator codes the converter tells apart; `Other code` is any other
operator of the library. -/
inductive Op
  | LogicAnd
  | LogicOr
  | EQ
  | Other (code : Nat)
deriving DecidableEq, Repr

end opcode

namespace pcast

open model

structure ColumnName where
  Schema : CIStr
  Table : CIStr
  Name : CIStr
deriving DecidableEq, Repr

structure WildCardField where
  Schema : CIStr
  Table : CIStr
deriving DecidableEq, Repr

structure TableName where
  Schema : CIStr
  Name : CIStr
deriving DecidableEq, Repr

structure FieldType where
  Tp : Nat
  Elems : List String
deriving DecidableEq, Repr

inductive ColumnOptionType
  | ColumnOptionNotNull
  | Other (code : Nat)
deriving DecidableEq, Repr

structure ColumnOption where
  Tp : ColumnOptionType
deriving DecidableEq, Repr

structure ColumnDef where
  Name : ColumnName
  Tp : FieldType
  Options : List ColumnOption
deriving DecidableEq, Repr

inductive AlterTableType
  | AlterTableAddColumns
  | AlterTableDropColumn
  | AlterTableChangeColumn
  | AlterTableModifyColumn
  | AlterTableAlterColumn
  | AlterTableAddConstraint
  | Other (code : Nat)
deriving DecidableEq, Repr

structure AlterTableSpec where
  Tp : AlterTableType
  NewColumns : List ColumnDef
  OldColumnName : ColumnName
deriving DecidableEq, Repr

structure AlterTableStmt where
  Table : TableName
  Specs : List AlterTableSpec
deriving DecidableEq, Repr

structure CreateTableStmt where
  IfNotExists : Bool
  Table : TableName
  Cols : List ColumnDef
deriving DecidableEq, Repr

structure DropTableStmt where
  IfExists : Bool
  Tables : List TableName
deriving DecidableEq, Repr

/-! ## Native expressions and row sources -/

mutual

/-- Values of the Go interface `pcast.ExprNode`.  `ParamMarkerExpr` is the
driver's placeholder node; `Other kind children` is an expression of any kind
the converter has no rule for (function call, IN list, literal, ...), with the
expressions below it. -/
inductive ExprNode
  | nil
  | ParamMarkerExpr (Offset : Int)
  | BinaryOperationExpr (Op : opcode.Op) (L R : ExprNode)
  | ColumnNameExpr (Name : ColumnName)
  | ExistsSubqueryExpr (Sel : ExprNode)
  | SubqueryExpr (Query : ResultSetNode)
  | Other (kind : String) (children : List ExprNode)

/-- Values of the Go interface `pcast.ResultSetNode`.  `Other kind children`
is a row source of any further kind (a UNION, ...). -/
inductive ResultSetNode
  | nil
  | SelectStmt (Fields : List SelectField) (From : TableRefsClause) (Where : ExprNode)
      (GroupBy : List ExprNode) (Having : ExprNode) (OrderBy : List ExprNode) (Limit : Limit)
  | Join (Left Right : ResultSetNode) (On : ExprNode)
  | TableSource (Source : ResultSetNode) (AsName : CIStr)
  | TableName (Schema Name : CIStr)
  | Other (kind : String) (children : List ResultSetNode)

inductive SelectField
  | mk (Offset : Int) (WildCard : Option WildCardField) (Expr : ExprNode) (AsName : CIStr)

/-- A pointer `*pcast.TableRefsClause`; `TableRefs` is the join tree. -/
inductive TableRefsClause
  | nil
  | mk (TableRefs : ResultSetNode)

/-- A pointer `*pcast.Limit`. -/
inductive Limit
  | nil
  | mk (Count Offset : ExprNode)

end

structure Assignment where
  Column : ColumnName
  Expr : ExprNode

structure InsertStmt where
  Table : TableRefsClause
  Columns : List ColumnName
  Lists : List (List ExprNode)
  Setlist : List Assignment
  Select : ResultSetNode
  OnDuplicate : List Assignment

/-- Values of the Go interface `pcast.Node`.  `Other kind children` is a node
of any further kind (DELETE, UPDATE, ...) with the nodes below it. -/
inductive Node
  | nil
  | ExprNode (e : ExprNode)
  | ResultSetNode (r : ResultSetNode)
  | AlterTableStmt (n : AlterTableStmt)
  | CreateTableStmt (n : CreateTableStmt)
  | DropTableStmt (n : DropTableStmt)
  | InsertStmt (n : InsertStmt)
  | TableRefsClause (n : TableRefsClause)
  | SelectField (n : SelectField)
  | Limit (n : Limit)
  | Other (kind : String) (children : List Node)

end pcast

/-! ## Canonical AST -/

namespace pg

structure ParamRef where
  Number : Nat
  Location : Int
deriving DecidableEq, Repr

end pg

namespace ast

structure TableName where
  Schema : String
  Name : String
deriving DecidableEq, Repr

structure TypeName where
  Name : String
deriving DecidableEq, Repr

structure ColumnDef where
  Colname : String
  TypeName : TypeName
  IsNotNull : Bool
deriving DecidableEq, Repr

inductive AlterTableType
  | AT_AddColumn
  | AT_DropColumn
deriving DecidableEq, Repr

/-- Values of the Go interface `ast.Node`, with the node types of packages
`ast` and `pg` that the converter builds. -/
inductive Node
  | nil
  | TODO
  | List (Items : List Node)
  | AlterTableStmt (Table : TableName) (Cmds : Node)
  | AlterTableCmd (Name : Option String) (Subtype : AlterTableType) (Def : Option ColumnDef)
  | CreateTableStmt (Name : TableName) (IfNotExists : Bool) (Cols : List ColumnDef)
  | DropTableStmt (IfExists : Bool) (Tables : List TableName)
  | A_Expr (Name Lexpr Rexpr : Node)
  | A_Star
  | BoolExpr (Args : Node)
  | ColumnRef (Fields : Node)
  | InsertStmt (Relation Cols ReturningList SelectStmt : Node)
  | ParamRef (p : pg.ParamRef)
  | RangeVar (Schemaname Relname : Option String)
  | ResTarget (Name : Option String) (Val : Node) (Location : Int)
  | SelectStmt (TargetList FromClause WhereClause LimitCount LimitOffset ValuesLists : Node)
  | String (Str : String)
  | SubLink (Subselect : Node)

end ast

/-! ## Tree traversal of the parser library -/

namespace pcast

mutual

/-- The nodes of an expression in the order the library's `Accept` enters
them: the node itself, then its children from left to right. -/
def ExprNode.nodes : ExprNode → List Node
  | .nil => []
  | .ParamMarkerExpr o => [.ExprNode (.ParamMarkerExpr o)]
  | .BinaryOperationExpr op l r =>
    .ExprNode (.BinaryOperationExpr op l r) :: (l.nodes ++ r.nodes)
  | .ColumnNameExpr n => [.ExprNode (.ColumnNameExpr n)]
  | .ExistsSubqueryExpr s => .ExprNode (.ExistsSubqueryExpr s) :: s.nodes
  | .SubqueryExpr q => .ExprNode (.SubqueryExpr q) :: q.nodes
  | .Other k cs => .ExprNode (.Other k cs) :: exprListNodes cs

def exprListNodes : List ExprNode → List Node
  | [] => []
  | e :: es => e.nodes ++ exprListNodes es

def ResultSetNode.nodes : ResultSetNode → List Node
  | .nil => []
  | .SelectStmt fs fr w g h o l =>
    .ResultSetNode (.SelectStmt fs fr w g h o l) ::
      (fieldListNodes fs ++ fr.nodes ++ w.nodes ++ exprListNodes g ++ h.nodes
        ++ exprListNodes o ++ l.nodes)
  | .Join l r e => .ResultSetNode (.Join l r e) :: (l.nodes ++ r.nodes ++ e.nodes)
  | .TableSource s a => .ResultSetNode (.TableSource s a) :: s.nodes
  | .TableName s n => [.ResultSetNode (.TableName s n)]
  | .Other k cs => .ResultSetNode (.Other k cs) :: resultSetListNodes cs

def resultSetListNodes : List ResultSetNode → List Node
  | [] => []
  | r :: rs => r.nodes ++ resultSetListNodes rs

def SelectField.nodes : SelectField → List Node
  | .mk o w e a => .SelectField (.mk o w e a) :: e.nodes

def fieldListNodes : List SelectField → List Node
  | [] => []
  | f :: fs => f.nodes ++ fieldListNodes fs

def TableRefsClause.nodes : TableRefsClause → List Node
  | .nil => []
  | .mk t => .TableRefsClause (.mk t) :: t.nodes

def Limit.nodes : Limit → List Node
  | .nil => []
  | .mk c o => .Limit (.mk c o) :: (c.nodes ++ o.nodes)

end

end pcast

/-! ## The converter -/

namespace dolphin

open pcast (ExprNode ResultSetNode SelectField TableRefsClause Limit)

/-- Functions of the parser library that the converter calls and whose tables
are not part of the repository: `Op.String` of package `opcode`,
`types.TypeStr`, and the `String` method of `*pcast.ColumnName`. -/
structure Lib where
  OpString : opcode.Op → String
  TypeStr : Nat → String
  ColumnNameString : pcast.ColumnName → String

/-- The conversion context.  `paramCount` is the field of the Go struct.
`allocated` is not a Go field and no method reads it: it is the log of the
`ParamRef` nodes allocated through this context, oldest first, so that the
nodes a conversion creates can be spoken of whether or not they end up in the
returned tree. -/
structure cc where
  paramCount : Nat
  allocated : List pg.ParamRef
deriving DecidableEq, Repr

/-- Modelled from the spec: `isNotNull` (package dolphin, not among the
sources) gives the not-null flag of a column definition; a column is not null
when one of its options is the NOT NULL option. -/
def isNotNull (n : pcast.ColumnDef) : Bool :=
  n.Options.any (fun o => o.Tp = pcast.ColumnOptionType.ColumnOptionNotNull)

/-- Modelled from the spec: `parseTableName` (package dolphin, not among the
sources) gives the qualified table name, schema and name. -/
def parseTableName (n : pcast.TableName) : ast.TableName :=
  ⟨n.Schema.String, n.Name.String⟩

/-- Modelled from the spec: `visit` (package dolphin, not among the sources)
walks a table-reference clause, recursively visiting all nested nodes, and
calls `fn` on each in encounter order.  The variables the Go closure captures
are the state `σ`. -/
def visit {σ : Type} (n : TableRefsClause) (fn : pcast.Node → σ → σ) (s : σ) : σ :=
  n.nodes.foldl (fun acc m => fn m acc) s

/-- One command per new column of an add-columns sub-command (the inner loop
of `convertAlterTableStmt`). -/
def addColumnCmds (lib : Lib) (items : List ast.Node) (cols : List pcast.ColumnDef) :
    List ast.Node :=
  cols.foldl (fun items d =>
    items ++ [ast.Node.AlterTableCmd (some (lib.ColumnNameString d.Name))
      ast.AlterTableType.AT_AddColumn
      (some ⟨lib.ColumnNameString d.Name, ⟨lib.TypeStr d.Tp.Tp⟩, isNotNull d⟩)]) items

/-- The body of the loop of `convertAlterTableStmt` over the sub-commands:
what one sub-command appends to the command list. -/
def alterSpecCmds (lib : Lib) (items : List ast.Node) (spec : pcast.AlterTableSpec) :
    List ast.Node :=
  match spec.Tp with
  | .AlterTableAddColumns => addColumnCmds lib items spec.NewColumns
  | .AlterTableDropColumn =>
    items ++ [ast.Node.AlterTableCmd (some (lib.ColumnNameString spec.OldColumnName))
      ast.AlterTableType.AT_DropColumn none]
  | .AlterTableChangeColumn => items
  | .AlterTableModifyColumn => items
  | .AlterTableAlterColumn => items
  | .AlterTableAddConstraint => items
  | .Other _ => items

def convertAlterTableStmt (lib : Lib) (n : pcast.AlterTableStmt) : ast.Node :=
  .AlterTableStmt (parseTableName n.Table) (.List (n.Specs.foldl (alterSpecCmds lib) []))

def opToName (lib : Lib) (o : opcode.Op) : String :=
  match o with
  | .EQ => "="
  | _ => lib.OpString o

/-- The list `vals` that the Go loop builds from the enum elements of a column
type is never read, so it is left out. -/
def convertCreateTableStmt (lib : Lib) (n : pcast.CreateTableStmt) : ast.Node :=
  let cols := n.Cols.foldl (fun (cols : List ast.ColumnDef) d =>
    cols ++ [⟨lib.ColumnNameString d.Name, ⟨lib.TypeStr d.Tp.Tp⟩, isNotNull d⟩]) []
  .CreateTableStmt (parseTableName n.Table) n.IfNotExists cols

def convertColumnNameExpr (Name : pcast.ColumnName) : ast.Node :=
  .ColumnRef (.List [.String Name.Name.String])

def convertColumnNames (cols : List pcast.ColumnName) : ast.Node :=
  .List (cols.foldl (fun items col => items ++ [ast.Node.ResTarget (some col.Name.String) .nil 0]) [])

def convertDropTableStmt (n : pcast.DropTableStmt) : ast.Node :=
  .DropTableStmt n.IfExists
    (n.Tables.foldl (fun (tables : List ast.TableName) name => tables ++ [parseTableName name]) [])

def convertParamMarkerExpr (Offset : Int) (c : cc) : ast.Node × cc :=
  let p : pg.ParamRef := ⟨c.paramCount + 1, Offset⟩
  (.ParamRef p, ⟨c.paramCount + 1, c.allocated ++ [p]⟩)

def convertTableRefsClause (n : TableRefsClause) : ast.Node :=
  .List (visit n (fun m (tables : List ast.Node) =>
    match m with
    | .ResultSetNode (.TableName Schema Name) =>
      tables ++ [ast.Node.RangeVar (some Schema.String) (some Name.String)]
    | _ => tables) [])

def convertWildCardField (n : pcast.WildCardField) : ast.Node :=
  let items : List ast.Node := []
  let items := if n.Table.String ≠ "" then items ++ [ast.Node.String n.Table.String] else items
  let items := items ++ [ast.Node.A_Star]
  .ColumnRef (.List items)

mutual

/-- The type switch of `convert` at an argument of static type `ExprNode`.
The bodies of `convertBinaryOperationExpr`, `convertExistsSubqueryExpr` and
`convertSubqueryExpr` stand in their cases, since they call back into
`convert` on the operands. -/
def convertExprNode (lib : Lib) : ExprNode → cc → ast.Node × cc
  | .nil, c => (.nil, c)
  | .ParamMarkerExpr Offset, c => convertParamMarkerExpr Offset c
  | .BinaryOperationExpr Op L R, c =>
    if Op = opcode.Op.LogicAnd ∨ Op = opcode.Op.LogicOr then
      let l := convertExprNode lib L c
      let r := convertExprNode lib R l.2
      (.BoolExpr (.List [l.1, r.1]), r.2)
    else
      let l := convertExprNode lib L c
      let r := convertExprNode lib R l.2
      (.A_Expr (.List [.String (opToName lib Op)]) l.1 r.1, r.2)
  | .ColumnNameExpr Name, c => (convertColumnNameExpr Name, c)
  | .ExistsSubqueryExpr Sel, c =>
    let ss := convertExprNode lib Sel c
    match ss.1 with
    | .SelectStmt t f w lc lo v => (.SubLink (.SelectStmt t f w lc lo v), ss.2)
    | _ => (.SubLink .nil, ss.2)
  | .SubqueryExpr Query, c => convertResultSetNode lib Query c
  | .Other _ _, c => (.TODO, c)

/-- The type switch of `convert` at an argument of static type
`ResultSetNode`; the SELECT case is the body of `convertSelectStmt`, with the
body of `convertFieldList` in place of its call. -/
def convertResultSetNode (lib : Lib) : ResultSetNode → cc → ast.Node × cc
  | .nil, c => (.nil, c)
  | .SelectStmt Fields From Where _ _ _ Lim, c =>
    let tl := convertFields lib Fields c
    let fc := convertTableRefsClause From
    let wc := convertExprNode lib Where tl.2
    match Lim with
    | .nil => (.SelectStmt (.List tl.1) fc wc.1 .nil .nil .nil, wc.2)
    | .mk Count Offset =>
      let lc := convertExprNode lib Count wc.2
      let lo := convertExprNode lib Offset lc.2
      (.SelectStmt (.List tl.1) fc wc.1 lc.1 lo.1 .nil, lo.2)
  | .Join _ _ _, c => (.TODO, c)
  | .TableSource _ _, c => (.TODO, c)
  | .TableName _ _, c => (.TODO, c)
  | .Other _ _, c => (.TODO, c)

def convertSelectField (lib : Lib) : SelectField → cc → ast.Node × cc
  | .mk Offset WildCard Expr AsName, c =>
    let val :=
      match WildCard with
      | some w => (convertWildCardField w, c)
      | none => convertExprNode lib Expr c
    let name := if AsName.O ≠ "" then some AsName.O else none
    (.ResTarget name val.1 Offset, val.2)

/-- The loop of `convertFieldList` over `n.Fields`: slot `i` of the result
is the conversion of field `i`, the fields being converted in index order. -/
def convertFields (lib : Lib) : List SelectField → cc → List ast.Node × cc
  | [], c => ([], c)
  | f :: fs, c =>
    let r := convertSelectField lib f c
    let rs := convertFields lib fs r.2
    (r.1 :: rs.1, rs.2)

end

def convertFieldList (lib : Lib) (Fields : List SelectField) (c : cc) : ast.Node × cc :=
  let fields := convertFields lib Fields c
  (.List fields.1, fields.2)


/-- The method `convertSelectStmt`: `convert` at a SELECT node. -/
def convertSelectStmt (lib : Lib) (Fields : List SelectField) (From : TableRefsClause)
    (Where : ExprNode) (GroupBy : List ExprNode) (Having : ExprNode) (OrderBy : List ExprNode)
    (Lim : Limit) (c : cc) : ast.Node × cc :=
  convertResultSetNode lib (.SelectStmt Fields From Where GroupBy Having OrderBy Lim) c

/-- The method `convertBinaryOperationExpr`: `convert` at a binary operation. -/
def convertBinaryOperationExpr (lib : Lib) (Op : opcode.Op) (L R : ExprNode) (c : cc) :
    ast.Node × cc :=
  convertExprNode lib (.BinaryOperationExpr Op L R) c

/-- The method `convertExistsSubqueryExpr`: `convert` at an EXISTS expression. -/
def convertExistsSubqueryExpr (lib : Lib) (Sel : ExprNode) (c : cc) : ast.Node × cc :=
  convertExprNode lib (.ExistsSubqueryExpr Sel) c

/-- The method `convertSubqueryExpr`: `convert` at a subquery expression. -/
def convertSubqueryExpr (lib : Lib) (Query : ResultSetNode) (c : cc) : ast.Node × cc :=
  convertExprNode lib (.SubqueryExpr Query) c

/-- The inner loop of `convertLists`: the items of one row, appended in order. -/
def convertRow (lib : Lib) (exprs : List ExprNode) (c : cc) : List ast.Node × cc :=
  exprs.foldl (fun (acc : List ast.Node × cc) expr =>
    let v := convertExprNode lib expr acc.2
    (acc.1 ++ [v.1], v.2)) ([], c)

def convertLists (lib : Lib) (lists : List (List ExprNode)) (c : cc) : ast.Node × cc :=
  let list := lists.foldl (fun (acc : List ast.Node × cc) exprs =>
    let inner := convertRow lib exprs acc.2
    (acc.1 ++ [ast.Node.List inner.1], inner.2)) ([], c)
  (.List list.1, list.2)

/-- The items of a canonical list node (`rels.Items`). -/
def Items : ast.Node → List ast.Node
  | .List items => items
  | _ => []

/-- The method `convertInsertStmt`; `debug.Dump` only prints and is left out.
A panic leaves the context as it is at that point. -/
def convertInsertStmt (lib : Lib) (n : pcast.InsertStmt) (c : cc) : Except String ast.Node × cc :=
  let rels := convertTableRefsClause n.Table
  if (Items rels).length ≠ 1 then
    (.error "expected one range var", c)
  else
    match (Items rels).head? with
    | some (.RangeVar s r) =>
      let cols := convertColumnNames n.Columns
      let vl := convertLists lib n.Lists c
      (.ok (.InsertStmt (.RangeVar s r) cols (.List [])
        (.SelectStmt (.List []) (.List []) .nil .nil .nil vl.1)), vl.2)
    | _ => (.error "expected range var", c)

/-- The type switch of `convert` on a value of the interface `pcast.Node`.  The
default case also prints the node type when debugging is on, which is left
out. -/
def convert (lib : Lib) : pcast.Node → cc → Except String ast.Node × cc
  | .nil, c => (.ok .nil, c)
  | .ExprNode e, c =>
    let r := convertExprNode lib e c
    (.ok r.1, r.2)
  | .ResultSetNode n, c =>
    let r := convertResultSetNode lib n c
    (.ok r.1, r.2)
  | .AlterTableStmt n, c => (.ok (convertAlterTableStmt lib n), c)
  | .CreateTableStmt n, c => (.ok (convertCreateTableStmt lib n), c)
  | .DropTableStmt n, c => (.ok (convertDropTableStmt n), c)
  | .InsertStmt n, c => convertInsertStmt lib n c
  | .TableRefsClause _, c => (.ok .TODO, c)
  | .SelectField _, c => (.ok .TODO, c)
  | .Limit _, c => (.ok .TODO, c)
  | .Other _ _, c => (.ok .TODO, c)

end dolphin

/-! ## Vocabulary of the statements -/

namespace pcast

mutual

/-- The nodes below and including a node of any kind, in traversal order. -/
def Node.nodes : Node → List Node
  | .nil => []
  | .ExprNode e => e.nodes
  | .ResultSetNode r => r.nodes
  | .AlterTableStmt n => [.AlterTableStmt n]
  | .CreateTableStmt n => [.CreateTableStmt n]
  | .DropTableStmt n => [.DropTableStmt n]
  | .InsertStmt n =>
    .InsertStmt n :: (n.Select.nodes ++ n.Table.nodes ++ exprListNodes n.Lists.flatten
      ++ exprListNodes (n.Setlist.map (fun a => a.Expr))
      ++ exprListNodes (n.OnDuplicate.map (fun a => a.Expr)))
  | .TableRefsClause t => t.nodes
  | .SelectField f => f.nodes
  | .Limit l => l.nodes
  | .Other k cs => .Other k cs :: nodeListNodes cs

def nodeListNodes : List Node → List Node
  | [] => []
  | n :: ns => n.nodes ++ nodeListNodes ns

end

/-- The node is a placeholder marker. -/
def isParamMarker : Node → Bool
  | .ExprNode (.ParamMarkerExpr _) => true
  | _ => false

/-- The number of placeholder markers occurring anywhere in a native tree. -/
def markerCount (n : Node) : Nat := n.nodes.countP isParamMarker

/-- The table-name nodes among a sequence of nodes, in order. -/
def tableNames (ns : List Node) : List TableName :=
  ns.filterMap (fun m =>
    match m with
    | .ResultSetNode (.TableName s n) => some ⟨s, n⟩
    | _ => none)

/-- The node is of one of the ten kinds `convert` has a rule for. -/
def hasRule : Node → Bool
  | .ExprNode (.ParamMarkerExpr _) => true
  | .AlterTableStmt _ => true
  | .ExprNode (.BinaryOperationExpr _ _ _) => true
  | .ExprNode (.ColumnNameExpr _) => true
  | .CreateTableStmt _ => true
  | .DropTableStmt _ => true
  | .ExprNode (.ExistsSubqueryExpr _) => true
  | .InsertStmt _ => true
  | .ResultSetNode (.SelectStmt _ _ _ _ _ _ _) => true
  | .ExprNode (.SubqueryExpr _) => true
  | _ => false

/-- The node is the nil interface value (an absent node). -/
def isNil : Node → Bool
  | .nil => true
  | .ExprNode .nil => true
  | .ResultSetNode .nil => true
  | _ => false

end pcast

namespace ast

mutual

/-- The ParamRef nodes of a canonical tree, from left to right. -/
def paramRefs : Node → List pg.ParamRef
  | .List items => paramRefsList items
  | .AlterTableStmt _ cmds => paramRefs cmds
  | .A_Expr n l r => paramRefs n ++ paramRefs l ++ paramRefs r
  | .BoolExpr a => paramRefs a
  | .ColumnRef f => paramRefs f
  | .InsertStmt rel cols ret sel => paramRefs rel ++ paramRefs cols ++ paramRefs ret ++ paramRefs sel
  | .ParamRef p => [p]
  | .ResTarget _ v _ => paramRefs v
  | .SelectStmt t f w lc lo v =>
    paramRefs t ++ paramRefs f ++ paramRefs w ++ paramRefs lc ++ paramRefs lo ++ paramRefs v
  | .SubLink s => paramRefs s
  | .nil => []
  | .TODO => []
  | .AlterTableCmd _ _ _ => []
  | .CreateTableStmt _ _ _ => []
  | .DropTableStmt _ _ => []
  | .A_Star => []
  | .RangeVar _ _ => []
  | .String _ => []

def paramRefsList : List Node → List pg.ParamRef
  | [] => []
  | n :: ns => paramRefs n ++ paramRefsList ns

end

/-- The node is a range variable. -/
def isRangeVar : Node → Bool
  | .RangeVar _ _ => true
  | _ => false

end ast

namespace dolphin

open pcast (ExprNode ResultSetNode SelectField TableRefsClause Limit)

/-- The ParamRef nodes of what a conversion returned; none after a panic. -/
def resultParamRefs : Except String ast.Node → List pg.ParamRef
  | .ok r => ast.paramRefs r
  | .error _ => []

/-- The context in which a statement conversion starts. -/
def fresh : cc := ⟨0, []⟩

/-- The items of a list converted one after the other, each in the context the
one before left behind. -/
def mapCtx {α β : Type} (f : α → cc → β × cc) : List α → cc → List β × cc
  | [], c => ([], c)
  | x :: xs, c =>
    let r := f x c
    let rs := mapCtx f xs r.2
    (r.1 :: rs.1, rs.2)

/-- The context left behind after converting a sequence of expressions. -/
def ctxAfter (lib : Lib) (es : List ExprNode) (c : cc) : cc :=
  es.foldl (fun c e => (convertExprNode lib e c).2) c

/-- The context left behind after converting a sequence of select fields. -/
def ctxAfterFields (lib : Lib) (fs : List SelectField) (c : cc) : cc :=
  fs.foldl (fun c f => (convertSelectField lib f c).2) c

/-- The expression converts to a SELECT-shaped canonical node: it is a
subquery expression over a SELECT statement. -/
def convertsToSelect : ExprNode → Bool
  | .SubqueryExpr (.SelectStmt _ _ _ _ _ _ _) => true
  | _ => false

mutual

/-- The number of placeholder markers at the positions of an expression whose
conversion is kept in the converted tree: the operands of binary operations,
the SELECT of a subquery expression, and the operand of an EXISTS when it is a
subquery over a SELECT. -/
def keptMarkers : ExprNode → Nat
  | .nil => 0
  | .ParamMarkerExpr _ => 1
  | .BinaryOperationExpr _ l r => keptMarkers l + keptMarkers r
  | .ColumnNameExpr _ => 0
  | .ExistsSubqueryExpr s => if convertsToSelect s then keptMarkers s else 0
  | .SubqueryExpr q => keptMarkersRS q
  | .Other _ _ => 0

/-- For a SELECT: the kept markers of its field expressions, WHERE clause and
LIMIT count and offset. -/
def keptMarkersRS : ResultSetNode → Nat
  | .SelectStmt fs _ w _ _ _ .nil => keptMarkersFields fs + keptMarkers w
  | .SelectStmt fs _ w _ _ _ (.mk cnt off) =>
    keptMarkersFields fs + keptMarkers w + keptMarkers cnt + keptMarkers off
  | .nil => 0
  | .Join _ _ _ => 0
  | .TableSource _ _ => 0
  | .TableName _ _ => 0
  | .Other _ _ => 0

def keptMarkersField : SelectField → Nat
  | .mk _ (some _) _ _ => 0
  | .mk _ none e _ => keptMarkers e

def keptMarkersFields : List SelectField → Nat
  | [] => 0
  | f :: fs => keptMarkersField f + keptMarkersFields fs

end

/-- The kept markers of the VALUES rows of an INSERT. -/
def keptMarkersInsert (n : pcast.InsertStmt) : Nat :=
  (n.Lists.flatten.map keptMarkers).sum

/-- The placeholders of a list marked as discarded. -/
def discard (ms : List (Int × Bool)) : List (Int × Bool) :=
  ms.map (fun m => (m.1, false))

mutual

/-- The placeholder markers that the conversion of an expression meets, in the
order it meets them, each with its source offset and with whether the ParamRef
made for it is kept in the returned tree.  The conversion descends into the
operands of a binary operation (left, then right), into the query of a subquery
expression and into the operand of an EXISTS; what the operand of an EXISTS
converts to is kept only when the operand is a subquery over a SELECT. -/
def metMarkers : ExprNode → List (Int × Bool)
  | .nil => []
  | .ParamMarkerExpr o => [(o, true)]
  | .BinaryOperationExpr _ l r => metMarkers l ++ metMarkers r
  | .ColumnNameExpr _ => []
  | .ExistsSubqueryExpr s => if convertsToSelect s then metMarkers s else discard (metMarkers s)
  | .SubqueryExpr q => metMarkersRS q
  | .Other _ _ => []

/-- For a SELECT: the markers met in its field expressions, then in its WHERE
clause, then in its LIMIT count and its LIMIT offset. -/
def metMarkersRS : ResultSetNode → List (Int × Bool)
  | .SelectStmt fs _ w _ _ _ .nil => metMarkersFields fs ++ metMarkers w
  | .SelectStmt fs _ w _ _ _ (.mk cnt off) =>
    metMarkersFields fs ++ metMarkers w ++ metMarkers cnt ++ metMarkers off
  | .nil => []
  | .Join _ _ _ => []
  | .TableSource _ _ => []
  | .TableName _ _ => []
  | .Other _ _ => []

def metMarkersField : SelectField → List (Int × Bool)
  | .mk _ (some _) _ _ => []
  | .mk _ none e _ => metMarkers e

def metMarkersFields : List SelectField → List (Int × Bool)
  | [] => []
  | f :: fs => metMarkersField f ++ metMarkersFields fs

end

/-- The markers met by the conversion of one VALUES row, then of all rows. -/
def metMarkersRow (exprs : List ExprNode) : List (Int × Bool) :=
  (exprs.map metMarkers).flatten

def metMarkersRows (lists : List (List ExprNode)) : List (Int × Bool) :=
  (lists.map metMarkersRow).flatten

/-- The markers met by `convert` on a node of any kind: an INSERT meets those of
its VALUES rows when its target clause yields one table (it panics before any
conversion otherwise); a node of a kind without a rule, and a DDL statement,
meet none. -/
def metMarkersNode : pcast.Node → List (Int × Bool)
  | .ExprNode e => metMarkers e
  | .ResultSetNode r => metMarkersRS r
  | .InsertStmt n =>
    if (Items (convertTableRefsClause n.Table)).length = 1 then metMarkersRows n.Lists else []
  | _ => []

/-- The ParamRef nodes made for a sequence of markers when the counter stands at
`k`: the first gets number `k + 1`, each next one the next number, and each the
source offset of its marker as Location. -/
def createdRefs (k : Nat) : List (Int × Bool) → List pg.ParamRef
  | [] => []
  | m :: ms => ⟨k + 1, m.1⟩ :: createdRefs (k + 1) ms

/-- Those of the nodes of `createdRefs` whose marker is kept. -/
def keptRefs (k : Nat) : List (Int × Bool) → List pg.ParamRef
  | [] => []
  | m :: ms => if m.2 then ⟨k + 1, m.1⟩ :: keptRefs (k + 1) ms else keptRefs (k + 1) ms

/-- A conversion step that starts in context `c`, meets the markers `ms`,
returns a tree whose ParamRef nodes are `r` and ends in context `c'` numbers
them in sequence: the counter grows by the number of markers met, the log by
the nodes made for them, and `r` is made of the kept ones. -/
def Numbers (c : cc) (ms : List (Int × Bool)) (r : List pg.ParamRef) (c' : cc) : Prop :=
  c' = ⟨c.paramCount + ms.length, c.allocated ++ createdRefs c.paramCount ms⟩ ∧
  r = keptRefs c.paramCount ms

/-- The node is SELECT-shaped (a `*pg.SelectStmt`). -/
def isSelectStmt : ast.Node → Bool
  | .SelectStmt _ _ _ _ _ _ => true
  | _ => false

/-- The add-column command of one new column: its name, and a definition with
name, type name and not-null flag. -/
def addColumnCmd (lib : Lib) (d : pcast.ColumnDef) : ast.Node :=
  .AlterTableCmd (some (lib.ColumnNameString d.Name)) ast.AlterTableType.AT_AddColumn
    (some ⟨lib.ColumnNameString d.Name, ⟨lib.TypeStr d.Tp.Tp⟩, isNotNull d⟩)

/-- The commands that one ALTER TABLE sub-command stands for: one add-column
command per new column of an add-columns sub-command, one drop-column command
naming the old column for a drop-column sub-command, none for any other kind. -/
def specCmds (lib : Lib) (spec : pcast.AlterTableSpec) : List ast.Node :=
  match spec.Tp with
  | .AlterTableAddColumns => spec.NewColumns.map (addColumnCmd lib)
  | .AlterTableDropColumn =>
    [.AlterTableCmd (some (lib.ColumnNameString spec.OldColumnName))
      ast.AlterTableType.AT_DropColumn none]
  | _ => []

/-- The sub-command is neither an add-columns nor a drop-column sub-command. -/
def isOtherSpec (spec : pcast.AlterTableSpec) : Bool :=
  match spec.Tp with
  | .AlterTableAddColumns => false
  | .AlterTableDropColumn => false
  | _ => true

/-! ## Concrete statements -/

namespace testdata

open model

/-- A stand-in for the parser library, used to evaluate the converter on
concrete trees. -/
def lib : Lib :=
  ⟨fun o =>
      match o with
      | .LogicAnd => "and"
      | .LogicOr => "or"
      | .EQ => "eq"
      | .Other _ => "op",
    fun _ => "int",
    fun n => n.Name.L⟩

def ident (s : String) : CIStr := ⟨s, s⟩

def column (s : String) : ExprNode := .ColumnNameExpr ⟨ident "", ident "", ident s⟩

def qualified (t s : String) : ExprNode := .ColumnNameExpr ⟨ident "", ident t, ident s⟩

def tableSource (s : String) : ResultSetNode :=
  .TableSource (.TableName (ident "") (ident s)) (ident "")

/-- The from clause `FROM s`. -/
def fromTable (s : String) : TableRefsClause :=
  .mk (.Join (tableSource s) .nil .nil)

def field (o : Int) (s : String) : SelectField := .mk o none (column s) (ident "")

/-- The tree of `SELECT id, name, rating, score, bio FROM authors WHERE id = ? LIMIT 1`
(query GetAuthor). -/
def getAuthor : ResultSetNode :=
  .SelectStmt [field 7 "id", field 11 "name", field 17 "rating", field 25 "score", field 32 "bio"]
    (fromTable "authors")
    (.BinaryOperationExpr .EQ (column "id") (.ParamMarkerExpr 60))
    [] .nil [] (.mk (.Other "ValueExpr" []) .nil)

/-- The tree of `INSERT INTO authors (name, bio) VALUES (?, ?)` (query CreateAuthor). -/
def createAuthor : pcast.InsertStmt :=
  ⟨fromTable "authors",
    [⟨ident "", ident "", ident "name"⟩, ⟨ident "", ident "", ident "bio"⟩],
    [[.ParamMarkerExpr 40, .ParamMarkerExpr 43]], [], .nil, []⟩

/-- The tree of `SELECT id FROM authors LIMIT ?, ?`: in this form of the clause
the first placeholder (offset 29) is the row offset and the second (offset 32)
the row count. -/
def limitOffsetCount : ResultSetNode :=
  .SelectStmt [field 7 "id"] (fromTable "authors") .nil [] .nil []
    (.mk (.ParamMarkerExpr 32) (.ParamMarkerExpr 29))

/-- The tree of `SELECT id FROM authors LIMIT ? OFFSET ?`: the first placeholder
(offset 29) is the row count and the second (offset 38) the row offset. -/
def limitCountOffset : ResultSetNode :=
  .SelectStmt [field 7 "id"] (fromTable "authors") .nil [] .nil []
    (.mk (.ParamMarkerExpr 29) (.ParamMarkerExpr 38))

/-- The tree of `SELECT a.id FROM a JOIN b ON b.id = ?`. -/
def joinOn : ResultSetNode :=
  .SelectStmt [.mk 7 none (qualified "a" "id") (ident "")]
    (.mk (.Join (tableSource "a") (tableSource "b")
      (.BinaryOperationExpr .EQ (qualified "b" "id") (.ParamMarkerExpr 36))))
    .nil [] .nil [] .nil

/-- The from clause `FROM a JOIN b JOIN c`, which nests to the left. -/
def joinLeft : TableRefsClause :=
  .mk (.Join (.Join (tableSource "a") (tableSource "b") .nil) (tableSource "c") .nil)

/-- The from clause `FROM a JOIN (b JOIN c)`, which nests to the right. -/
def joinRight : TableRefsClause :=
  .mk (.Join (tableSource "a") (.Join (tableSource "b") (tableSource "c") .nil) .nil)

/-- The tree of `DELETE FROM authors WHERE id = ?` (query DeleteAuthor). -/
def deleteAuthor : pcast.Node :=
  .Other "DeleteStmt" [.TableRefsClause (fromTable "authors"),
    .ExprNode (.BinaryOperationExpr .EQ (column "id") (.ParamMarkerExpr 31))]

/-- The expression `EXISTS (?) AND ?` with the placeholders at offsets 8 and
15: a value of the Go types, the operand of an EXISTS being an `ExprNode`,
though the grammar puts only a subquery there. -/
def existsMarkerAnd : ExprNode :=
  .BinaryOperationExpr .LogicAnd (.ExistsSubqueryExpr (.ParamMarkerExpr 8)) (.ParamMarkerExpr 15)

/-- The tree of `EXISTS (SELECT id FROM authors WHERE id = ?)`. -/
def existsSelect : ExprNode :=
  .ExistsSubqueryExpr (.SubqueryExpr
    (.SelectStmt [field 15 "id"] (fromTable "authors")
      (.BinaryOperationExpr .EQ (column "id") (.ParamMarkerExpr 44)) [] .nil [] .nil))

/-- The tree of `EXISTS (SELECT id FROM a UNION SELECT id FROM b)`: the inner
statement is a UNION, a kind `convert` has no rule for. -/
def existsUnion : ExprNode :=
  .ExistsSubqueryExpr (.SubqueryExpr
    (.Other "UnionStmt"
      [.SelectStmt [field 15 "id"] (fromTable "a") .nil [] .nil [] .nil,
        .SelectStmt [field 38 "id"] (fromTable "b") .nil [] .nil [] .nil]))

def columnDef (s : String) (tp : Nat) (opts : List pcast.ColumnOption) : pcast.ColumnDef :=
  ⟨⟨ident "", ident "", ident s⟩, ⟨tp, []⟩, opts⟩

/-- The tree of `CREATE TABLE IF NOT EXISTS authors (id bigint NOT NULL, name text NOT NULL, bio text)`. -/
def createAuthors : pcast.CreateTableStmt :=
  ⟨true, ⟨ident "", ident "authors"⟩,
    [columnDef "id" 8 [⟨.ColumnOptionNotNull⟩], columnDef "name" 252 [⟨.ColumnOptionNotNull⟩],
      columnDef "bio" 252 []]⟩

/-- The tree of `ALTER TABLE authors ADD COLUMN rating int NOT NULL, ADD COLUMN score int,
MODIFY COLUMN bio text, DROP COLUMN name`. -/
def alterAuthors : pcast.AlterTableStmt :=
  ⟨⟨ident "", ident "authors"⟩,
    [⟨.AlterTableAddColumns, [columnDef "rating" 3 [⟨.ColumnOptionNotNull⟩]],
        ⟨ident "", ident "", ident ""⟩⟩,
      ⟨.AlterTableAddColumns, [columnDef "score" 3 []], ⟨ident "", ident "", ident ""⟩⟩,
      ⟨.AlterTableModifyColumn, [columnDef "bio" 252 []], ⟨ident "", ident "", ident ""⟩⟩,
      ⟨.AlterTableDropColumn, [], ⟨ident "", ident "", ident "name"⟩⟩]⟩

/-- The tree of `ALTER TABLE authors MODIFY COLUMN bio text`. -/
def alterModifyOnly : pcast.AlterTableStmt :=
  ⟨⟨ident "", ident "authors"⟩,
    [⟨.AlterTableModifyColumn, [columnDef "bio" 252 []], ⟨ident "", ident "", ident ""⟩⟩]⟩

end testdata

end dolphin

/-! ## Loops and lists of the converter -/

namespace dolphin

open pcast (ExprNode ResultSetNode SelectField TableRefsClause Limit)

/-! ### The from clause: range variables only -/

/-- The loop of `visit` with the closure of `convertTableRefsClause`, started
from any list `tables`: the range variables of the table names met are
appended in order. -/
theorem tableRefs_foldl (ns : List pcast.Node) (tables : List ast.Node) :
    ns.foldl (fun acc m =>
      (fun (m : pcast.Node) (tables : List ast.Node) =>
        match m with
        | .ResultSetNode (.TableName Schema Name) =>
          tables ++ [ast.Node.RangeVar (some Schema.String) (some Name.String)]
        | _ => tables) m acc) tables
      = tables ++ (pcast.tableNames ns).map
          (fun t => ast.Node.RangeVar (some t.Schema.O) (some t.Name.O)) := by
  induction ns generalizing tables with
  | nil => simp [pcast.tableNames]
  | cons m ms ih =>
    rw [List.foldl_cons, ih]
    cases m with
    | ResultSetNode r =>
      cases r <;> simp [pcast.tableNames, List.filterMap_cons, model.CIStr.String]
    | _ => simp [pcast.tableNames, List.filterMap_cons]

theorem convertTableRefsClause_eq (n : TableRefsClause) :
    convertTableRefsClause n = .List ((pcast.tableNames n.nodes).map
      (fun t => ast.Node.RangeVar (some t.Schema.O) (some t.Name.O))) := by
  unfold convertTableRefsClause visit
  rw [tableRefs_foldl]
  simp

theorem paramRefsList_rangeVars (ts : List pcast.TableName) :
    ast.paramRefsList (ts.map (fun t => ast.Node.RangeVar (some t.Schema.O) (some t.Name.O)))
      = [] := by
  induction ts with
  | nil => rfl
  | cons t ts ih => simp [ast.paramRefsList, ast.paramRefs, ih]

theorem convertTableRefsClause_paramRefs (n : TableRefsClause) :
    ast.paramRefs (convertTableRefsClause n) = [] := by
  rw [convertTableRefsClause_eq, ast.paramRefs, paramRefsList_rangeVars]

theorem convertWildCardField_paramRefs (w : pcast.WildCardField) :
    ast.paramRefs (convertWildCardField w) = [] := by
  unfold convertWildCardField
  by_cases h : w.Table.String = "" <;> simp [h, ast.paramRefs, ast.paramRefsList]

/-! ### The loops that append converted items -/

theorem foldl_append_eq_mapCtx {α β : Type} (f : α → cc → β × cc) (xs : List α)
    (init : List β) (c : cc) :
    xs.foldl (fun (acc : List β × cc) x => ((acc.1 ++ [(f x acc.2).1]), (f x acc.2).2)) (init, c)
      = (init ++ (mapCtx f xs c).1, (mapCtx f xs c).2) := by
  induction xs generalizing init c with
  | nil => simp [mapCtx]
  | cons x xs ih =>
    rw [List.foldl_cons, ih]
    simp [mapCtx]

theorem convertRow_eq (lib : Lib) (exprs : List ExprNode) (c : cc) :
    convertRow lib exprs c = mapCtx (convertExprNode lib) exprs c := by
  unfold convertRow
  rw [foldl_append_eq_mapCtx (convertExprNode lib) exprs [] c]
  simp

theorem convertLists_eq (lib : Lib) (lists : List (List ExprNode)) (c : cc) :
    convertLists lib lists c
      = (.List (mapCtx (fun row c => (ast.Node.List (convertRow lib row c).1,
            (convertRow lib row c).2)) lists c).1,
          (mapCtx (fun row c => (ast.Node.List (convertRow lib row c).1,
            (convertRow lib row c).2)) lists c).2) := by
  unfold convertLists
  rw [foldl_append_eq_mapCtx (fun row c => (ast.Node.List (convertRow lib row c).1,
    (convertRow lib row c).2)) lists [] c]
  simp

theorem convertFields_eq (lib : Lib) (fs : List SelectField) (c : cc) :
    convertFields lib fs c = mapCtx (convertSelectField lib) fs c := by
  induction fs generalizing c with
  | nil => simp [convertFields, mapCtx]
  | cons f fs ih => simp [convertFields, mapCtx, ih]

theorem paramRefsList_resTargets (cols : List pcast.ColumnName) :
    ast.paramRefsList (cols.map (fun col => ast.Node.ResTarget (some col.Name.O) .nil 0)) = [] := by
  induction cols with
  | nil => rfl
  | cons t ts ih => simp [ast.paramRefsList, ast.paramRefs, ih]

theorem convertColumnNames_eq (cols : List pcast.ColumnName) :
    convertColumnNames cols
      = .List (cols.map (fun col => ast.Node.ResTarget (some col.Name.O) .nil 0)) := by
  unfold convertColumnNames
  have key : ∀ (init : List ast.Node),
      cols.foldl (fun items col =>
          items ++ [ast.Node.ResTarget (some col.Name.String) .nil 0]) init
        = init ++ cols.map (fun col => ast.Node.ResTarget (some col.Name.O) .nil 0) := by
    induction cols with
    | nil => simp
    | cons col cols ih => intro init; rw [List.foldl_cons, ih]; simp [model.CIStr.String]
  rw [key]; simp

theorem convertColumnNames_paramRefs (cols : List pcast.ColumnName) :
    ast.paramRefs (convertColumnNames cols) = [] := by
  rw [convertColumnNames_eq, ast.paramRefs, paramRefsList_resTargets]

/-- The two outcomes of `convertInsertStmt`, by the table names the traversal
of the target clause meets. -/
theorem convertInsertStmt_eq (lib : Lib) (n : pcast.InsertStmt) (c : cc) :
    convertInsertStmt lib n c =
      match pcast.tableNames n.Table.nodes with
      | [t] =>
        (.ok (.InsertStmt (.RangeVar (some t.Schema.O) (some t.Name.O))
            (convertColumnNames n.Columns) (.List [])
            (.SelectStmt (.List []) (.List []) .nil .nil .nil (convertLists lib n.Lists c).1)),
          (convertLists lib n.Lists c).2)
      | _ => (.error "expected one range var", c) := by
  unfold convertInsertStmt
  rw [convertTableRefsClause_eq]
  rcases pcast.tableNames n.Table.nodes with _ | ⟨t, _ | ⟨t', l⟩⟩ <;> simp [Items]

theorem paramRefsList_append (xs ys : List ast.Node) :
    ast.paramRefsList (xs ++ ys) = ast.paramRefsList xs ++ ast.paramRefsList ys := by
  induction xs with
  | nil => simp [ast.paramRefsList]
  | cons x xs ih => simp [ast.paramRefsList, ih]

theorem addColumnCmds_paramRefs (lib : Lib) (cols : List pcast.ColumnDef) (items : List ast.Node)
    (h : ast.paramRefsList items = []) :
    ast.paramRefsList (addColumnCmds lib items cols) = [] := by
  unfold addColumnCmds
  induction cols generalizing items with
  | nil => simpa using h
  | cons d ds ih =>
    rw [List.foldl_cons]
    apply ih
    simp [paramRefsList_append, h, ast.paramRefsList, ast.paramRefs]

theorem alterSpecCmds_paramRefs (lib : Lib) (spec : pcast.AlterTableSpec)
    (items : List ast.Node) (h : ast.paramRefsList items = []) :
    ast.paramRefsList (alterSpecCmds lib items spec) = [] := by
  unfold alterSpecCmds
  cases spec.Tp <;>
    simp [h, paramRefsList_append, ast.paramRefsList, ast.paramRefs, addColumnCmds_paramRefs]

theorem convertAlterTableStmt_paramRefs (lib : Lib) (n : pcast.AlterTableStmt) :
    ast.paramRefs (convertAlterTableStmt lib n) = [] := by
  unfold convertAlterTableStmt
  simp only [ast.paramRefs]
  have key : ∀ (specs : List pcast.AlterTableSpec) (init : List ast.Node),
      ast.paramRefsList init = [] →
      ast.paramRefsList (specs.foldl (alterSpecCmds lib) init) = [] := by
    intro specs
    induction specs with
    | nil => intro init h; simpa using h
    | cons spec specs ih =>
      intro init h
      rw [List.foldl_cons]
      exact ih _ (alterSpecCmds_paramRefs lib spec init h)
  exact key n.Specs [] rfl

end dolphin

/-! ## Placeholders kept in the converted tree -/

namespace dolphin

open pcast (ExprNode ResultSetNode SelectField TableRefsClause Limit)

theorem convertsToSelect_true (lib : Lib) (s : ExprNode) (c : cc)
    (h : convertsToSelect s = true) :
    ∃ t f w lc lo v, (convertExprNode lib s c).1 = .SelectStmt t f w lc lo v := by
  cases s with
  | SubqueryExpr q =>
    cases q with
    | SelectStmt fs fr w g hv o l =>
      cases l with
      | nil => exact ⟨_, _, _, _, _, _, rfl⟩
      | mk cnt off => exact ⟨_, _, _, _, _, _, rfl⟩
    | _ => simp [convertsToSelect] at h
  | _ => simp [convertsToSelect] at h

theorem convertsToSelect_false (lib : Lib) (s : ExprNode) (c : cc)
    (h : convertsToSelect s = false) (t f w lc lo v : ast.Node) :
    (convertExprNode lib s c).1 ≠ .SelectStmt t f w lc lo v := by
  cases s with
  | nil => simp [convertExprNode]
  | ParamMarkerExpr o => simp [convertExprNode, convertParamMarkerExpr]
  | BinaryOperationExpr op l r =>
    simp only [convertExprNode]
    split <;> simp
  | ColumnNameExpr n => simp [convertExprNode, convertColumnNameExpr]
  | ExistsSubqueryExpr s =>
    simp only [convertExprNode]
    split <;> simp
  | SubqueryExpr q =>
    cases q with
    | SelectStmt fs fr w g hv o l => simp [convertsToSelect] at h
    | _ => simp [convertExprNode, convertResultSetNode]
  | Other k cs => simp [convertExprNode]

mutual

theorem convertExprNode_kept (lib : Lib) : ∀ (e : ExprNode) (c : cc),
    (ast.paramRefs (convertExprNode lib e c).1).length = keptMarkers e
  | .nil, c => by simp [convertExprNode, ast.paramRefs, keptMarkers]
  | .ParamMarkerExpr o, c => by
    simp [convertExprNode, convertParamMarkerExpr, ast.paramRefs, keptMarkers]
  | .BinaryOperationExpr op l r, c => by
    have hl := convertExprNode_kept lib l c
    have hr := convertExprNode_kept lib r (convertExprNode lib l c).2
    simp only [convertExprNode, keptMarkers]
    split <;> simp [ast.paramRefs, ast.paramRefsList, hl, hr]
  | .ColumnNameExpr n, c => by
    simp [convertExprNode, convertColumnNameExpr, ast.paramRefs, ast.paramRefsList, keptMarkers]
  | .ExistsSubqueryExpr s, c => by
    have hs := convertExprNode_kept lib s c
    simp only [convertExprNode, keptMarkers]
    split
    · rename_i t f w lc lo v heq
      have hsel : convertsToSelect s = true := by
        by_contra hne
        exact convertsToSelect_false lib s c (by simpa using hne) t f w lc lo v heq
      rw [heq] at hs
      simpa [ast.paramRefs, hsel] using hs
    · rename_i hno
      have hsel : convertsToSelect s = false := by
        by_contra hne
        obtain ⟨t, f, w, lc, lo, v, heq⟩ := convertsToSelect_true lib s c (by simpa using hne)
        exact hno t f w lc lo v heq
      simp [ast.paramRefs, hsel]
  | .SubqueryExpr q, c => by
    simp only [convertExprNode, keptMarkers]; exact convertResultSetNode_kept lib q c
  | .Other _ _, c => by simp [convertExprNode, ast.paramRefs, keptMarkers]

theorem convertResultSetNode_kept (lib : Lib) : ∀ (r : ResultSetNode) (c : cc),
    (ast.paramRefs (convertResultSetNode lib r c).1).length = keptMarkersRS r
  | .nil, c => by simp [convertResultSetNode, ast.paramRefs, keptMarkersRS]
  | .SelectStmt fs fr w g h o .nil, c => by
    have h1 := convertFields_kept lib fs c
    have h2 := convertExprNode_kept lib w (convertFields lib fs c).2
    have hfr := convertTableRefsClause_paramRefs fr
    simp only [convertResultSetNode, keptMarkersRS]
    generalize convertTableRefsClause fr = fc at hfr
    simp [ast.paramRefs, hfr, h1, h2]
  | .SelectStmt fs fr w g h o (.mk cnt off), c => by
    have h1 := convertFields_kept lib fs c
    have h2 := convertExprNode_kept lib w (convertFields lib fs c).2
    have h3 := convertExprNode_kept lib cnt (convertExprNode lib w (convertFields lib fs c).2).2
    have h4 := convertExprNode_kept lib off
      (convertExprNode lib cnt (convertExprNode lib w (convertFields lib fs c).2).2).2
    have hfr := convertTableRefsClause_paramRefs fr
    simp only [convertResultSetNode, keptMarkersRS]
    generalize convertTableRefsClause fr = fc at hfr
    simp [ast.paramRefs, hfr, h1, h2, h3, h4, Nat.add_assoc]
  | .Join _ _ _, c => by simp [convertResultSetNode, ast.paramRefs, keptMarkersRS]
  | .TableSource _ _, c => by simp [convertResultSetNode, ast.paramRefs, keptMarkersRS]
  | .TableName _ _, c => by simp [convertResultSetNode, ast.paramRefs, keptMarkersRS]
  | .Other _ _, c => by simp [convertResultSetNode, ast.paramRefs, keptMarkersRS]

theorem convertSelectField_kept (lib : Lib) : ∀ (f : SelectField) (c : cc),
    (ast.paramRefs (convertSelectField lib f c).1).length = keptMarkersField f
  | .mk o (some w) e a, c => by
    have hw := convertWildCardField_paramRefs w
    simp only [convertSelectField, keptMarkersField]
    generalize convertWildCardField w = v at hw
    simp [ast.paramRefs, hw]
  | .mk o none e a, c => by
    simp only [convertSelectField, ast.paramRefs, keptMarkersField]
    exact convertExprNode_kept lib e c

theorem convertFields_kept (lib : Lib) : ∀ (fs : List SelectField) (c : cc),
    (ast.paramRefsList (convertFields lib fs c).1).length = keptMarkersFields fs
  | [], c => by simp [convertFields, ast.paramRefsList, keptMarkersFields]
  | f :: fs, c => by
    have h1 := convertSelectField_kept lib f c
    have h2 := convertFields_kept lib fs (convertSelectField lib f c).2
    simp [convertFields, ast.paramRefsList, keptMarkersFields, h1, h2]

end

mutual

theorem keptMarkers_le : ∀ (e : ExprNode),
    keptMarkers e ≤ e.nodes.countP pcast.isParamMarker
  | .nil => by simp [keptMarkers]
  | .ParamMarkerExpr o => by simp [keptMarkers, ExprNode.nodes, pcast.isParamMarker]
  | .BinaryOperationExpr op l r => by
    have hl := keptMarkers_le l
    have hr := keptMarkers_le r
    simp only [keptMarkers, ExprNode.nodes, List.countP_cons, List.countP_append]
    omega
  | .ColumnNameExpr n => by simp [keptMarkers]
  | .ExistsSubqueryExpr s => by
    have hs := keptMarkers_le s
    simp only [keptMarkers, ExprNode.nodes, List.countP_cons]
    split <;> omega
  | .SubqueryExpr q => by
    have hq := keptMarkersRS_le q
    simp only [keptMarkers, ExprNode.nodes, List.countP_cons]
    omega
  | .Other _ _ => by simp [keptMarkers]

theorem keptMarkersRS_le : ∀ (r : ResultSetNode),
    keptMarkersRS r ≤ r.nodes.countP pcast.isParamMarker
  | .nil => by simp [keptMarkersRS]
  | .SelectStmt fs fr w g h o .nil => by
    have h1 := keptMarkersFields_le fs
    have h2 := keptMarkers_le w
    simp only [keptMarkersRS, ResultSetNode.nodes, List.countP_cons, List.countP_append]
    omega
  | .SelectStmt fs fr w g h o (.mk cnt off) => by
    have h1 := keptMarkersFields_le fs
    have h2 := keptMarkers_le w
    have h3 := keptMarkers_le cnt
    have h4 := keptMarkers_le off
    simp only [keptMarkersRS, ResultSetNode.nodes, Limit.nodes, List.countP_cons,
      List.countP_append]
    omega
  | .Join _ _ _ => by simp [keptMarkersRS]
  | .TableSource _ _ => by simp [keptMarkersRS]
  | .TableName _ _ => by simp [keptMarkersRS]
  | .Other _ _ => by simp [keptMarkersRS]

theorem keptMarkersField_le : ∀ (f : SelectField),
    keptMarkersField f ≤ f.nodes.countP pcast.isParamMarker
  | .mk o (some w) e a => by simp [keptMarkersField]
  | .mk o none e a => by
    have he := keptMarkers_le e
    simp only [keptMarkersField, SelectField.nodes, List.countP_cons]
    omega

theorem keptMarkersFields_le : ∀ (fs : List SelectField),
    keptMarkersFields fs ≤ (pcast.fieldListNodes fs).countP pcast.isParamMarker
  | [] => by simp [keptMarkersFields]
  | f :: fs => by
    have h1 := keptMarkersField_le f
    have h2 := keptMarkersFields_le fs
    simp only [keptMarkersFields, pcast.fieldListNodes, List.countP_append]
    omega

end

theorem mapCtx_kept {α : Type} (f : α → cc → ast.Node × cc) (k : α → Nat)
    (hf : ∀ x c, (ast.paramRefs (f x c).1).length = k x) (xs : List α) (c : cc) :
    (ast.paramRefsList (mapCtx f xs c).1).length = (xs.map k).sum := by
  induction xs generalizing c with
  | nil => simp [mapCtx, ast.paramRefsList]
  | cons x xs ih => simp [mapCtx, ast.paramRefsList, hf, ih]

theorem sum_map_flatten {α : Type} (k : α → Nat) (ls : List (List α)) :
    (ls.flatten.map k).sum = (ls.map (fun row => (row.map k).sum)).sum := by
  induction ls with
  | nil => simp
  | cons l ls ih =>
    rw [List.flatten_cons, List.map_append, List.sum_append, ih, List.map_cons, List.sum_cons]

theorem convertLists_kept (lib : Lib) (lists : List (List ExprNode)) (c : cc) :
    (ast.paramRefs (convertLists lib lists c).1).length = (lists.flatten.map keptMarkers).sum := by
  rw [convertLists_eq, sum_map_flatten]
  simp only [ast.paramRefs]
  apply mapCtx_kept
  intro row c
  simp only [ast.paramRefs]
  rw [convertRow_eq]
  exact mapCtx_kept _ keptMarkers (convertExprNode_kept lib) row c

theorem exprList_kept_le (es : List ExprNode) :
    (es.map keptMarkers).sum ≤ (pcast.exprListNodes es).countP pcast.isParamMarker := by
  induction es with
  | nil => simp
  | cons e es ih =>
    have he := keptMarkers_le e
    simp only [List.map_cons, List.sum_cons, pcast.exprListNodes, List.countP_append]
    omega

theorem keptMarkersInsert_le (n : pcast.InsertStmt) :
    keptMarkersInsert n ≤ pcast.markerCount (.InsertStmt n) := by
  have h := exprList_kept_le n.Lists.flatten
  simp only [keptMarkersInsert, pcast.markerCount, pcast.Node.nodes, List.countP_cons,
    List.countP_append]
  omega

/-- C2 fails on the code, by the order in which the LIMIT expressions are
converted.  In `SELECT id FROM authors LIMIT ?, ?` the
first placeholder (source offset 29) is the row offset and the second (source
offset 32) the row count; `convertSelectStmt` converts the count before the
offset, so the placeholder at offset 32 becomes ParamRef number 1 and the one at
offset 29 becomes number 2: the smaller number has the larger location.  On the
other form of the clause, `LIMIT ? OFFSET ?`, the same code numbers the
placeholders in source order. -/
theorem limit_numbers_against_source_order (lib : Lib) :
    ast.paramRefs (convertResultSetNode lib testdata.limitOffsetCount fresh).1
      = [⟨1, 32⟩, ⟨2, 29⟩] ∧
    ast.paramRefs (convertResultSetNode lib testdata.limitCountOffset fresh).1
      = [⟨1, 29⟩, ⟨2, 38⟩] :=
  ⟨rfl, rfl⟩

/-- C3 does not hold as stated: in `SELECT a.id FROM a JOIN b ON b.id = ?` the native
tree holds one placeholder marker, in the join condition, and the converted
tree holds no ParamRef. -/
theorem join_condition_marker_not_converted :
    (resultParamRefs (convert testdata.lib (.ResultSetNode testdata.joinOn) fresh).1).length
      ≠ pcast.markerCount (.ResultSetNode testdata.joinOn) := by
  decide

/-- C3, amended: for every SELECT, and for every INSERT with exactly one target
table, the ParamRef nodes of the converted tree are as many as the placeholder
markers that stand where the conversion is kept (select-field expressions of
fields that are no wildcard, WHERE, LIMIT count and offset, VALUES rows; below
these the operands of binary operations, the SELECT of a subquery expression,
and the operand of an EXISTS that is a subquery over a SELECT), and this is at
most the number of markers of the native tree.  Markers elsewhere, as in the
from clause or below a node of a kind without a rule, yield no ParamRef. -/
theorem paramRefs_count_kept_markers (lib : Lib) :
    (∀ (Fields : List SelectField) (From : TableRefsClause) (Where : ExprNode)
        (GroupBy : List ExprNode) (Having : ExprNode) (OrderBy : List ExprNode) (Lim : Limit)
        (c : cc),
      (ast.paramRefs (convertSelectStmt lib Fields From Where GroupBy Having OrderBy Lim c).1).length
          = keptMarkersRS (.SelectStmt Fields From Where GroupBy Having OrderBy Lim) ∧
        keptMarkersRS (.SelectStmt Fields From Where GroupBy Having OrderBy Lim)
          ≤ pcast.markerCount
              (.ResultSetNode (.SelectStmt Fields From Where GroupBy Having OrderBy Lim))) ∧
    (∀ (n : pcast.InsertStmt) (c : cc),
      (Items (convertTableRefsClause n.Table)).length = 1 →
      ∃ r, (convertInsertStmt lib n c).1 = .ok r ∧
        (ast.paramRefs r).length = keptMarkersInsert n ∧
        keptMarkersInsert n ≤ pcast.markerCount (.InsertStmt n)) := by
  constructor
  · intro Fields From Where GroupBy Having OrderBy Lim c
    exact ⟨convertResultSetNode_kept lib _ c, keptMarkersRS_le _⟩
  · intro n c h
    have hv := convertLists_kept lib n.Lists c
    have hc := convertColumnNames_paramRefs n.Columns
    rw [convertTableRefsClause_eq] at h
    rw [convertInsertStmt_eq]
    generalize convertColumnNames n.Columns = cols at hc
    generalize pcast.tableNames n.Table.nodes = ts at h
    rcases ts with _ | ⟨t, _ | ⟨t', l⟩⟩
    · simp [Items] at h
    · refine ⟨_, rfl, ?_, keptMarkersInsert_le n⟩
      simpa [ast.paramRefs, ast.paramRefsList, hc, keptMarkersInsert] using hv
    · simp [Items] at h

theorem paramRefs_count_kept_markers_witness :
    (ast.paramRefs (convertResultSetNode testdata.lib testdata.getAuthor fresh).1).length = 1 ∧
    (Items (convertTableRefsClause testdata.createAuthor.Table)).length = 1 ∧
    ∃ r, (convertInsertStmt testdata.lib testdata.createAuthor fresh).1 = .ok r ∧
      (ast.paramRefs r).length = 2 :=
  ⟨((paramRefs_count_kept_markers testdata.lib).1 _ _ _ _ _ _ _ fresh).1,
    by decide,
    by
      obtain ⟨r, h1, h2, _⟩ :=
        (paramRefs_count_kept_markers testdata.lib).2 testdata.createAuthor fresh (by decide)
      exact ⟨r, h1, h2⟩⟩

end dolphin

/-! ## Unsupported kinds and the INSERT target -/

namespace dolphin

open pcast (ExprNode ResultSetNode SelectField TableRefsClause Limit)

/-- C4: for every native node that is present and whose kind is none of the ten
kinds `convert` has a rule for, `convert` does not fail: it returns the
unsupported sentinel `ast.TODO`, whatever stands below the node, and leaves the
context, parameter counter included, as it was. -/
theorem convert_unsupported_kind (lib : Lib) (n : pcast.Node) (c : cc)
    (hpresent : pcast.isNil n = false) (hkind : pcast.hasRule n = false) :
    convert lib n c = (.ok .TODO, c) := by
  cases n with
  | nil => simp [pcast.isNil] at hpresent
  | ExprNode e =>
    cases e with
    | nil => simp [pcast.isNil] at hpresent
    | Other k cs => rfl
    | _ => simp [pcast.hasRule] at hkind
  | ResultSetNode r =>
    cases r with
    | nil => simp [pcast.isNil] at hpresent
    | SelectStmt fs fr w g h o l => simp [pcast.hasRule] at hkind
    | _ => rfl
  | AlterTableStmt n => simp [pcast.hasRule] at hkind
  | CreateTableStmt n => simp [pcast.hasRule] at hkind
  | DropTableStmt n => simp [pcast.hasRule] at hkind
  | InsertStmt n => simp [pcast.hasRule] at hkind
  | TableRefsClause n => rfl
  | SelectField n => rfl
  | Limit n => rfl
  | Other k cs => rfl

theorem convert_unsupported_kind_witness :
    convert testdata.lib testdata.deleteAuthor ⟨4, []⟩ = (.ok .TODO, ⟨4, []⟩) ∧
    convert testdata.lib (.ResultSetNode (.Other "UnionStmt" [testdata.getAuthor])) fresh
      = (.ok .TODO, fresh) :=
  ⟨convert_unsupported_kind testdata.lib testdata.deleteAuthor ⟨4, []⟩ (by decide) (by decide),
    convert_unsupported_kind testdata.lib _ fresh (by decide) (by decide)⟩

theorem items_convertTableRefsClause (n : TableRefsClause) :
    Items (convertTableRefsClause n) = (pcast.tableNames n.nodes).map
      (fun t => ast.Node.RangeVar (some t.Schema.O) (some t.Name.O)) := by
  rw [convertTableRefsClause_eq, Items]

/-- C5: `convertInsertStmt` panics if and only if flattening the target
table-reference clause yields a number of tables other than one; when it yields
exactly one item, that item is the range variable of the one table name met,
with its schema and name, and the conversion returns an InsertStmt whose
Relation is that range variable. -/
theorem convertInsertStmt_panics_iff (lib : Lib) (n : pcast.InsertStmt) (c : cc) :
    ((∃ msg, (convertInsertStmt lib n c).1 = .error msg)
      ↔ (Items (convertTableRefsClause n.Table)).length ≠ 1) ∧
    (∀ rel, Items (convertTableRefsClause n.Table) = [rel] →
      (∃ t, pcast.tableNames n.Table.nodes = [t] ∧
        rel = .RangeVar (some t.Schema.O) (some t.Name.O)) ∧
      ∃ cols ret sel, (convertInsertStmt lib n c).1 = .ok (.InsertStmt rel cols ret sel)) := by
  rw [items_convertTableRefsClause, convertInsertStmt_eq]
  generalize pcast.tableNames n.Table.nodes = ts
  rcases ts with _ | ⟨t, _ | ⟨t', l⟩⟩
  · simp
  · simp
  · simp

theorem convertInsertStmt_panics_iff_witness :
    (∃ msg, (convertInsertStmt testdata.lib
        ⟨testdata.joinLeft, [], [[.ParamMarkerExpr 0]], [], .nil, []⟩ fresh).1 = .error msg) ∧
    ∃ cols ret sel, (convertInsertStmt testdata.lib testdata.createAuthor fresh).1
      = .ok (.InsertStmt (.RangeVar (some "") (some "authors")) cols ret sel) :=
  ⟨(convertInsertStmt_panics_iff testdata.lib
      ⟨testdata.joinLeft, [], [[.ParamMarkerExpr 0]], [], .nil, []⟩ fresh).1.2 (by decide),
    ((convertInsertStmt_panics_iff testdata.lib testdata.createAuthor fresh).2
      (.RangeVar (some "") (some "authors")) (by rfl)).2⟩

end dolphin

/-! ## Order of rows, columns and targets -/

namespace dolphin

open pcast (ExprNode ResultSetNode SelectField TableRefsClause Limit)

theorem mapCtx_length {α β : Type} (f : α → cc → β × cc) (xs : List α) (c : cc) :
    (mapCtx f xs c).1.length = xs.length := by
  induction xs generalizing c with
  | nil => rfl
  | cons x xs ih => simp [mapCtx, ih]

theorem mapCtx_snd {α β : Type} (f : α → cc → β × cc) (xs : List α) (c : cc) :
    (mapCtx f xs c).2 = xs.foldl (fun c x => (f x c).2) c := by
  induction xs generalizing c with
  | nil => rfl
  | cons x xs ih => simp [mapCtx, ih]

/-- Item `i` of a threaded conversion is the conversion of item `i` of the
input, in the context left by the items before it. -/
theorem mapCtx_getElem? {α β : Type} (f : α → cc → β × cc) (xs : List α) (c : cc)
    (i : Nat) (x : α) (h : xs[i]? = some x) :
    (mapCtx f xs c).1[i]? = some (f x ((xs.take i).foldl (fun c x => (f x c).2) c)).1 := by
  induction xs generalizing c i with
  | nil => simp at h
  | cons y ys ih =>
    cases i with
    | zero =>
      simp only [List.getElem?_cons_zero, Option.some.injEq] at h
      simp [mapCtx, h]
    | succ i =>
      simp only [List.getElem?_cons_succ] at h
      simp [mapCtx, ih _ i h]

theorem mapCtx_map_fst {α β γ : Type} (f : α → cc → β × cc) (g : β → γ) (xs : List α) (c : cc) :
    mapCtx (fun x c => (g (f x c).1, (f x c).2)) xs c
      = ((mapCtx f xs c).1.map g, (mapCtx f xs c).2) := by
  induction xs generalizing c with
  | nil => rfl
  | cons x xs ih => simp [mapCtx, ih]

theorem convertRow_snd (lib : Lib) (exprs : List ExprNode) (c : cc) :
    (convertRow lib exprs c).2 = ctxAfter lib exprs c := by
  rw [convertRow_eq, mapCtx_snd, ctxAfter]

theorem ctxAfter_append (lib : Lib) (es fs : List ExprNode) (c : cc) :
    ctxAfter lib (es ++ fs) c = ctxAfter lib fs (ctxAfter lib es c) := by
  simp [ctxAfter, List.foldl_append]

theorem ctxAfter_flatten (lib : Lib) (ls : List (List ExprNode)) (c : cc) :
    ls.foldl (fun c row => (convertRow lib row c).2) c = ctxAfter lib ls.flatten c := by
  induction ls generalizing c with
  | nil => rfl
  | cons l ls ih =>
    rw [List.foldl_cons, ih, List.flatten_cons, ctxAfter_append, convertRow_snd]

/-- The value rows of `convertLists`, item by item. -/
theorem convertLists_rows (lib : Lib) (lists : List (List ExprNode)) (c : cc) :
    ∃ rows : List (List ast.Node),
      (convertLists lib lists c).1 = .List (rows.map ast.Node.List) ∧
      rows.length = lists.length ∧
      ∀ (r : Nat) (exprs : List ExprNode), lists[r]? = some exprs →
        ∃ row, rows[r]? = some row ∧ row.length = exprs.length ∧
          ∀ (j : Nat) (e : ExprNode), exprs[j]? = some e →
            row[j]? = some (convertExprNode lib e
              (ctxAfter lib ((lists.take r).flatten ++ exprs.take j) c)).1 := by
  refine ⟨(mapCtx (convertRow lib) lists c).1, ?_, mapCtx_length _ _ _, ?_⟩
  · rw [convertLists_eq, mapCtx_map_fst (convertRow lib) ast.Node.List]
  · intro r exprs hr
    refine ⟨_, mapCtx_getElem? (convertRow lib) lists c r exprs hr, ?_, ?_⟩
    · rw [convertRow_eq, mapCtx_length]
    · intro j e hj
      rw [convertRow_eq, mapCtx_getElem? (convertExprNode lib) exprs _ j e hj,
        ctxAfter_flatten, ctxAfter_append]
      rfl

/-- C6: for every INSERT with exactly one target table, the converted node
keeps row and column order: ValuesLists has one inner list per native values
row, in row order, whose item `j` is the conversion of the native expression at
that place (made in the context left by the expressions before it, in row
order); Cols has one ResTarget per native column name, in order, named after
it; ReturningList, FromClause and TargetList are empty lists. -/
theorem insert_keeps_row_and_column_order (lib : Lib) (n : pcast.InsertStmt) (c : cc)
    (rel : ast.Node) (hone : Items (convertTableRefsClause n.Table) = [rel]) :
    ∃ rows : List (List ast.Node),
      (convertInsertStmt lib n c).1 = .ok (.InsertStmt rel
        (.List (n.Columns.map (fun col => ast.Node.ResTarget (some col.Name.O) .nil 0)))
        (.List [])
        (.SelectStmt (.List []) (.List []) .nil .nil .nil (.List (rows.map ast.Node.List)))) ∧
      rows.length = n.Lists.length ∧
      ∀ (r : Nat) (exprs : List ExprNode), n.Lists[r]? = some exprs →
        ∃ row, rows[r]? = some row ∧ row.length = exprs.length ∧
          ∀ (j : Nat) (e : ExprNode), exprs[j]? = some e →
            row[j]? = some (convertExprNode lib e
              (ctxAfter lib ((n.Lists.take r).flatten ++ exprs.take j) c)).1 := by
  obtain ⟨rows, h1, h2, h3⟩ := convertLists_rows lib n.Lists c
  refine ⟨rows, ?_, h2, h3⟩
  rw [items_convertTableRefsClause] at hone
  rw [convertInsertStmt_eq, convertColumnNames_eq, h1]
  generalize pcast.tableNames n.Table.nodes = ts at hone
  rcases ts with _ | ⟨t, _ | ⟨t', l⟩⟩
  · simp at hone
  · simp only [List.map_cons, List.map_nil, List.cons.injEq, and_true] at hone
    rw [← hone]
  · simp at hone

theorem insert_keeps_row_and_column_order_witness :
    ∃ rows : List (List ast.Node),
      (convertInsertStmt testdata.lib testdata.createAuthor fresh).1 = .ok (.InsertStmt
        (.RangeVar (some "") (some "authors"))
        (.List [.ResTarget (some "name") .nil 0, .ResTarget (some "bio") .nil 0])
        (.List [])
        (.SelectStmt (.List []) (.List []) .nil .nil .nil (.List (rows.map ast.Node.List)))) ∧
      rows.length = 1 := by
  obtain ⟨rows, h1, h2, _⟩ := insert_keeps_row_and_column_order testdata.lib
    testdata.createAuthor fresh (.RangeVar (some "") (some "authors")) (by rfl)
  exact ⟨rows, h1, h2⟩

end dolphin

namespace dolphin

open pcast (ExprNode ResultSetNode SelectField TableRefsClause Limit)

theorem ctxAfter_markers (lib : Lib) (os : List Int) (c : cc) :
    (ctxAfter lib (os.map ExprNode.ParamMarkerExpr) c).paramCount = c.paramCount + os.length := by
  induction os generalizing c with
  | nil => rfl
  | cons o os ih =>
    have h := ih (convertExprNode lib (.ParamMarkerExpr o) c).2
    simp only [ctxAfter, List.map_cons, List.foldl_cons, List.length_cons] at h ⊢
    rw [h]
    simp only [convertExprNode, convertParamMarkerExpr]
    omega

/-- C7: for every INSERT with one target table whose VALUES rows consist only
of placeholders, converted from a fresh context, the placeholder at 0-based
position `j` of row `r` becomes the ParamRef numbered (total length of the rows
before `r`) + `j` + 1, at its own source offset; the columns are converted to
ResTargets in order, so that with a single row the column at position `i` faces
the ParamRef numbered `i + 1`. -/
theorem insert_placeholder_numbers (lib : Lib) (n : pcast.InsertStmt) (rel : ast.Node)
    (offs : List (List Int))
    (hone : Items (convertTableRefsClause n.Table) = [rel])
    (hrows : n.Lists = offs.map (fun row => row.map ExprNode.ParamMarkerExpr)) :
    ∃ rows : List (List ast.Node),
      (convertInsertStmt lib n fresh).1 = .ok (.InsertStmt rel
        (.List (n.Columns.map (fun col => ast.Node.ResTarget (some col.Name.O) .nil 0)))
        (.List [])
        (.SelectStmt (.List []) (.List []) .nil .nil .nil (.List (rows.map ast.Node.List)))) ∧
      rows.length = offs.length ∧
      ∀ (r : Nat) (rowOffs : List Int), offs[r]? = some rowOffs →
        ∃ row, rows[r]? = some row ∧ row.length = rowOffs.length ∧
          ∀ (j : Nat) (o : Int), rowOffs[j]? = some o →
            row[j]? = some (.ParamRef ⟨(offs.take r).flatten.length + j + 1, o⟩) := by
  obtain ⟨rows, h1, h2, h3⟩ := convertLists_rows lib n.Lists fresh
  refine ⟨rows, ?_, ?_, ?_⟩
  · rw [items_convertTableRefsClause] at hone
    rw [convertInsertStmt_eq, convertColumnNames_eq, h1]
    generalize pcast.tableNames n.Table.nodes = ts at hone
    rcases ts with _ | ⟨t, _ | ⟨t', l⟩⟩
    · simp at hone
    · simp only [List.map_cons, List.map_nil, List.cons.injEq, and_true] at hone
      rw [← hone]
    · simp at hone
  · rw [h2, hrows, List.length_map]
  · intro r rowOffs hr
    have hr' : n.Lists[r]? = some (rowOffs.map ExprNode.ParamMarkerExpr) := by
      rw [hrows, List.getElem?_map, hr]; rfl
    obtain ⟨row, hrow, hlen, hitems⟩ := h3 r _ hr'
    refine ⟨row, hrow, by rw [hlen, List.length_map], ?_⟩
    intro j o hj
    have hj' : (rowOffs.map ExprNode.ParamMarkerExpr)[j]? = some (.ParamMarkerExpr o) := by
      rw [List.getElem?_map, hj]; rfl
    rw [hitems j _ hj']
    have hjlt : j < rowOffs.length := by
      rcases Nat.lt_or_ge j rowOffs.length with hlt | hge
      · exact hlt
      · rw [List.getElem?_eq_none hge] at hj; cases hj
    have hctx : (List.take r n.Lists).flatten ++ List.take j (rowOffs.map ExprNode.ParamMarkerExpr)
        = ((offs.take r).flatten ++ rowOffs.take j).map ExprNode.ParamMarkerExpr := by
      rw [hrows, List.map_append, List.map_flatten, List.map_take, List.map_take]
    rw [hctx]
    have hcnt := ctxAfter_markers lib ((offs.take r).flatten ++ rowOffs.take j) fresh
    rw [List.length_append, List.length_take, Nat.min_eq_left (Nat.le_of_lt hjlt)] at hcnt
    simp only [convertExprNode, convertParamMarkerExpr, hcnt]
    simp [fresh]

theorem insert_placeholder_numbers_witness :
    ∃ rows : List (List ast.Node),
      (convertInsertStmt testdata.lib testdata.createAuthor fresh).1 = .ok (.InsertStmt
        (.RangeVar (some "") (some "authors"))
        (.List [.ResTarget (some "name") .nil 0, .ResTarget (some "bio") .nil 0])
        (.List [])
        (.SelectStmt (.List []) (.List []) .nil .nil .nil (.List (rows.map ast.Node.List)))) ∧
      ∃ row, rows[0]? = some row ∧
        row[0]? = some (.ParamRef ⟨1, 40⟩) ∧ row[1]? = some (.ParamRef ⟨2, 43⟩) := by
  obtain ⟨rows, h1, _, h3⟩ := insert_placeholder_numbers testdata.lib testdata.createAuthor
    (.RangeVar (some "") (some "authors")) [[40, 43]] (by rfl) (by rfl)
  obtain ⟨row, hrow, _, hitems⟩ := h3 0 [40, 43] (by rfl)
  exact ⟨rows, h1, row, hrow, hitems 0 40 (by rfl), hitems 1 43 (by rfl)⟩

end dolphin

/-! ## SELECT: target list, optional clauses, from clause -/

namespace dolphin

open pcast (ExprNode ResultSetNode SelectField TableRefsClause Limit)

theorem convertSelectStmt_targetList (lib : Lib) (Fields : List SelectField)
    (From : TableRefsClause) (Where : ExprNode) (GroupBy : List ExprNode) (Having : ExprNode)
    (OrderBy : List ExprNode) (Lim : Limit) (c : cc) :
    ∃ fc w lc lo v, (convertSelectStmt lib Fields From Where GroupBy Having OrderBy Lim c).1
      = .SelectStmt (.List (convertFields lib Fields c).1) fc w lc lo v := by
  cases Lim with
  | nil => exact ⟨_, _, _, _, _, rfl⟩
  | mk cnt off => exact ⟨_, _, _, _, _, rfl⟩

/-- C8: for every SELECT the converted TargetList has exactly one ResTarget per
native select field, in the same order: item `i` is the conversion of field `i`
(made in the context left by the fields before it), its Val being the converted
wildcard or expression, its Name the alias when the alias is non-empty and
absent otherwise, its Location the field's offset. -/
theorem select_target_list_in_field_order (lib : Lib) (Fields : List SelectField)
    (From : TableRefsClause) (Where : ExprNode) (GroupBy : List ExprNode) (Having : ExprNode)
    (OrderBy : List ExprNode) (Lim : Limit) (c : cc) :
    ∃ items fc w lc lo v,
      (convertSelectStmt lib Fields From Where GroupBy Having OrderBy Lim c).1
        = .SelectStmt (.List items) fc w lc lo v ∧
      items.length = Fields.length ∧
      ∀ (i : Nat) (Offset : Int) (WildCard : Option pcast.WildCardField) (Expr : ExprNode)
          (AsName : model.CIStr),
        Fields[i]? = some (.mk Offset WildCard Expr AsName) →
        items[i]? = some (.ResTarget
          (if AsName.O ≠ "" then some AsName.O else none)
          (match WildCard with
            | some wc => convertWildCardField wc
            | none => (convertExprNode lib Expr (ctxAfterFields lib (Fields.take i) c)).1)
          Offset) := by
  obtain ⟨fc, w, lc, lo, v, h⟩ :=
    convertSelectStmt_targetList lib Fields From Where GroupBy Having OrderBy Lim c
  refine ⟨_, fc, w, lc, lo, v, h, ?_, ?_⟩
  · rw [convertFields_eq, mapCtx_length]
  · intro i Offset WildCard Expr AsName hi
    rw [convertFields_eq, mapCtx_getElem? (convertSelectField lib) Fields c i _ hi]
    cases WildCard <;> rfl

theorem select_target_list_in_field_order_witness :
    ∃ items fc w lc lo v,
      (convertResultSetNode testdata.lib testdata.getAuthor fresh).1
        = .SelectStmt (.List items) fc w lc lo v ∧
      items.length = 5 ∧
      items[0]? = some (.ResTarget none (.ColumnRef (.List [.String "id"])) 7) ∧
      items[1]? = some (.ResTarget none (.ColumnRef (.List [.String "name"])) 11) ∧
      items[2]? = some (.ResTarget none (.ColumnRef (.List [.String "rating"])) 17) ∧
      items[3]? = some (.ResTarget none (.ColumnRef (.List [.String "score"])) 25) ∧
      items[4]? = some (.ResTarget none (.ColumnRef (.List [.String "bio"])) 32) := by
  obtain ⟨items, fc, w, lc, lo, v, h1, h2, h3⟩ :=
    select_target_list_in_field_order testdata.lib
      [testdata.field 7 "id", testdata.field 11 "name", testdata.field 17 "rating",
        testdata.field 25 "score", testdata.field 32 "bio"]
      (testdata.fromTable "authors")
      (.BinaryOperationExpr .EQ (testdata.column "id") (.ParamMarkerExpr 60))
      [] .nil [] (.mk (.Other "ValueExpr" []) .nil) fresh
  exact ⟨items, fc, w, lc, lo, v, h1, h2,
    h3 0 7 none (testdata.column "id") (testdata.ident "") (by rfl),
    h3 1 11 none (testdata.column "name") (testdata.ident "") (by rfl),
    h3 2 17 none (testdata.column "rating") (testdata.ident "") (by rfl),
    h3 3 25 none (testdata.column "score") (testdata.ident "") (by rfl),
    h3 4 32 none (testdata.column "bio") (testdata.ident "") (by rfl)⟩

/-- C9: an absent native node converts to nil and leaves the context, parameter
counter included, unchanged; the WhereClause of a converted SELECT is the
conversion of its WHERE expression, hence nil without WHERE; without LIMIT,
LimitCount and LimitOffset are nil; with a LIMIT clause they are the conversions
of its count and of its offset expression, in that order. -/
theorem select_optional_clauses (lib : Lib) (Fields : List SelectField) (From : TableRefsClause)
    (Where : ExprNode) (GroupBy : List ExprNode) (Having : ExprNode) (OrderBy : List ExprNode)
    (Count Offset : ExprNode) (c : cc) :
    convert lib .nil c = (.ok .nil, c) ∧
    convert lib (.ExprNode .nil) c = (.ok .nil, c) ∧
    convertExprNode lib .nil c = (.nil, c) ∧
    convertSelectStmt lib Fields From Where GroupBy Having OrderBy .nil c
      = (.SelectStmt (.List (convertFields lib Fields c).1) (convertTableRefsClause From)
          (convertExprNode lib Where (convertFields lib Fields c).2).1 .nil .nil .nil,
        (convertExprNode lib Where (convertFields lib Fields c).2).2) ∧
    convertSelectStmt lib Fields From .nil GroupBy Having OrderBy .nil c
      = (.SelectStmt (.List (convertFields lib Fields c).1) (convertTableRefsClause From)
          .nil .nil .nil .nil,
        (convertFields lib Fields c).2) ∧
    convertSelectStmt lib Fields From Where GroupBy Having OrderBy (.mk Count Offset) c
      = (.SelectStmt (.List (convertFields lib Fields c).1) (convertTableRefsClause From)
          (convertExprNode lib Where (convertFields lib Fields c).2).1
          (convertExprNode lib Count (convertExprNode lib Where (convertFields lib Fields c).2).2).1
          (convertExprNode lib Offset
            (convertExprNode lib Count
              (convertExprNode lib Where (convertFields lib Fields c).2).2).2).1
          .nil,
        (convertExprNode lib Offset
          (convertExprNode lib Count
            (convertExprNode lib Where (convertFields lib Fields c).2).2).2).2) :=
  ⟨rfl, rfl, rfl, rfl, rfl, rfl⟩

/-- C10: `convertTableRefsClause` returns a flat list that holds exactly one
range variable per table-name node the traversal of the clause meets, in
encounter order, each with that table's schema and name, and nothing else; so
two clauses whose traversals meet the same table names in the same order
convert to equal lists, whatever their join structure. -/
theorem tableRefs_flat_in_encounter_order (n m : TableRefsClause) :
    convertTableRefsClause n
      = .List ((pcast.tableNames n.nodes).map
          (fun t => ast.Node.RangeVar (some t.Schema.O) (some t.Name.O))) ∧
    (pcast.tableNames n.nodes = pcast.tableNames m.nodes →
      convertTableRefsClause n = convertTableRefsClause m) := by
  refine ⟨convertTableRefsClause_eq n, ?_⟩
  intro h
  rw [convertTableRefsClause_eq, convertTableRefsClause_eq, h]

theorem tableRefs_flat_in_encounter_order_witness :
    convertTableRefsClause testdata.joinLeft
      = .List [.RangeVar (some "") (some "a"), .RangeVar (some "") (some "b"),
          .RangeVar (some "") (some "c")] ∧
    convertTableRefsClause testdata.joinLeft = convertTableRefsClause testdata.joinRight :=
  ⟨(tableRefs_flat_in_encounter_order testdata.joinLeft testdata.joinRight).1,
    (tableRefs_flat_in_encounter_order testdata.joinLeft testdata.joinRight).2 (by decide)⟩

end dolphin

/-! ## Wildcards, binary operations, subqueries -/

namespace dolphin

open pcast (ExprNode ResultSetNode SelectField TableRefsClause Limit)

/-- C11: for every wildcard field `convertWildCardField` returns a column
reference whose field list is `[table-name string, star]` when the wildcard's
table name is non-empty and `[star]` alone when it is empty; the last item is
always the star, the length is 2 exactly when the wildcard is table-qualified,
and a qualified and a bare star never convert to the same node. -/
theorem wildcard_field_list (n m : pcast.WildCardField) :
    (n.Table.O ≠ "" →
      convertWildCardField n = .ColumnRef (.List [.String n.Table.O, .A_Star])) ∧
    (n.Table.O = "" → convertWildCardField n = .ColumnRef (.List [.A_Star])) ∧
    (∃ items, convertWildCardField n = .ColumnRef (.List items) ∧
      items.getLast? = some .A_Star ∧ (items.length = 2 ↔ n.Table.O ≠ "")) ∧
    (n.Table.O ≠ "" → m.Table.O = "" → convertWildCardField n ≠ convertWildCardField m) := by
  unfold convertWildCardField
  simp only [model.CIStr.String]
  by_cases hn : n.Table.O = ""
  · by_cases hm : m.Table.O = "" <;> simp [hn, hm]
  · by_cases hm : m.Table.O = "" <;> simp [hn, hm]

theorem wildcard_field_list_witness :
    convertWildCardField ⟨testdata.ident "", testdata.ident "authors"⟩
      = .ColumnRef (.List [.String "authors", .A_Star]) ∧
    convertWildCardField ⟨testdata.ident "", testdata.ident ""⟩ = .ColumnRef (.List [.A_Star]) ∧
    convertWildCardField ⟨testdata.ident "", testdata.ident "authors"⟩
      ≠ convertWildCardField ⟨testdata.ident "", testdata.ident ""⟩ :=
  ⟨(wildcard_field_list ⟨testdata.ident "", testdata.ident "authors"⟩
      ⟨testdata.ident "", testdata.ident ""⟩).1 (by decide),
    (wildcard_field_list ⟨testdata.ident "", testdata.ident ""⟩
      ⟨testdata.ident "", testdata.ident ""⟩).2.1 (by decide),
    (wildcard_field_list ⟨testdata.ident "", testdata.ident "authors"⟩
      ⟨testdata.ident "", testdata.ident ""⟩).2.2.2 (by decide) (by decide)⟩

/-- C12: for every binary operation with operator `Op` and operands `L`, `R`,
`L` is converted first and `R` in the context `L` left behind; for logical AND
and logical OR the result is a boolean-combination node whose argument list is
the two converted operands in that order; for every other operator it is a
generic binary-expression node whose Name is the one-item list with the
operator name and whose Lexpr and Rexpr are the converted operands; the
operator name is "=" for equality and the library's string form of the operator
for every other operator. -/
theorem binary_operation_shape (lib : Lib) (Op : opcode.Op) (L R : ExprNode) (c : cc) :
    ((Op = .LogicAnd ∨ Op = .LogicOr) →
      convertBinaryOperationExpr lib Op L R c
        = (.BoolExpr (.List [(convertExprNode lib L c).1,
            (convertExprNode lib R (convertExprNode lib L c).2).1]),
          (convertExprNode lib R (convertExprNode lib L c).2).2)) ∧
    (¬ (Op = .LogicAnd ∨ Op = .LogicOr) →
      convertBinaryOperationExpr lib Op L R c
        = (.A_Expr (.List [.String (opToName lib Op)]) (convertExprNode lib L c).1
            (convertExprNode lib R (convertExprNode lib L c).2).1,
          (convertExprNode lib R (convertExprNode lib L c).2).2)) ∧
    opToName lib .EQ = "=" ∧
    (∀ o : opcode.Op, o ≠ .EQ → opToName lib o = lib.OpString o) := by
  refine ⟨?_, ?_, rfl, ?_⟩
  · intro h
    simp only [convertBinaryOperationExpr, convertExprNode, if_pos h]
  · intro h
    simp only [convertBinaryOperationExpr, convertExprNode, if_neg h]
  · intro o ho
    cases o with
    | EQ => exact absurd rfl ho
    | _ => rfl

theorem binary_operation_shape_witness :
    convertBinaryOperationExpr testdata.lib .LogicAnd (.ParamMarkerExpr 3) (.ParamMarkerExpr 9) fresh
      = (.BoolExpr (.List [.ParamRef ⟨1, 3⟩, .ParamRef ⟨2, 9⟩]), ⟨2, [⟨1, 3⟩, ⟨2, 9⟩]⟩) ∧
    convertBinaryOperationExpr testdata.lib .EQ (testdata.column "id") (.ParamMarkerExpr 9) fresh
      = (.A_Expr (.List [.String "="]) (.ColumnRef (.List [.String "id"])) (.ParamRef ⟨1, 9⟩),
          ⟨1, [⟨1, 9⟩]⟩) ∧
    opToName testdata.lib (.Other 11) = "op" :=
  ⟨(binary_operation_shape testdata.lib .LogicAnd (.ParamMarkerExpr 3) (.ParamMarkerExpr 9)
      fresh).1 (by decide),
    (binary_operation_shape testdata.lib .EQ (testdata.column "id") (.ParamMarkerExpr 9)
      fresh).2.1 (by decide),
    (binary_operation_shape testdata.lib .EQ .nil .nil fresh).2.2.2 (.Other 11) (by decide)⟩

end dolphin

namespace dolphin

open pcast (ExprNode ResultSetNode SelectField TableRefsClause Limit)

theorem isSelectStmt_iff (a : ast.Node) :
    isSelectStmt a = true ↔ ∃ t f w lc lo v, a = .SelectStmt t f w lc lo v := by
  cases a <;> simp [isSelectStmt]

theorem convertsToSelect_iff (lib : Lib) (s : ExprNode) (c : cc) :
    isSelectStmt (convertExprNode lib s c).1 = convertsToSelect s := by
  cases hs : convertsToSelect s with
  | true =>
    obtain ⟨t, f, w, lc, lo, v, h⟩ := convertsToSelect_true lib s c hs
    rw [h]; rfl
  | false =>
    cases hr : isSelectStmt (convertExprNode lib s c).1 with
    | false => rfl
    | true =>
      obtain ⟨t, f, w, lc, lo, v, h⟩ := (isSelectStmt_iff _).1 hr
      exact absurd h (convertsToSelect_false lib s c hs t f w lc lo v)

/-- C13: `convertExistsSubqueryExpr` always returns a sub-link node; its
Subselect is the converted inner statement exactly when the conversion of the
operand is SELECT-shaped, which is the case exactly when the operand is a
subquery expression over a SELECT, and it is absent otherwise (as when the
inner statement converts to the unsupported sentinel); the context is the one
the conversion of the operand left.  A subquery expression converts to exactly
the conversion of its inner query. -/
theorem exists_sublink (lib : Lib) (Sel : ExprNode) (Query : ResultSetNode) (c : cc) :
    (isSelectStmt (convertExprNode lib Sel c).1 = true →
      convertExistsSubqueryExpr lib Sel c
        = (.SubLink (convertExprNode lib Sel c).1, (convertExprNode lib Sel c).2)) ∧
    (isSelectStmt (convertExprNode lib Sel c).1 = false →
      convertExistsSubqueryExpr lib Sel c = (.SubLink .nil, (convertExprNode lib Sel c).2)) ∧
    isSelectStmt (convertExprNode lib Sel c).1 = convertsToSelect Sel ∧
    convertSubqueryExpr lib Query c = convertResultSetNode lib Query c ∧
    convertExprNode lib (.SubqueryExpr Query) c = convertResultSetNode lib Query c := by
  refine ⟨?_, ?_, convertsToSelect_iff lib Sel c, rfl, rfl⟩
  · intro h
    obtain ⟨t, f, w, lc, lo, v, heq⟩ := (isSelectStmt_iff _).1 h
    simp only [convertExistsSubqueryExpr, convertExprNode, heq]
  · intro h
    simp only [convertExistsSubqueryExpr, convertExprNode]
    split
    · rename_i heq
      rw [heq] at h
      simp [isSelectStmt] at h
    · rfl

theorem exists_sublink_witness :
    (∃ t f w lc lo v, convertExprNode testdata.lib testdata.existsSelect fresh
      = (.SubLink (.SelectStmt t f w lc lo v), ⟨1, [⟨1, 44⟩]⟩)) ∧
    convertExprNode testdata.lib testdata.existsUnion fresh = (.SubLink .nil, fresh) := by
  constructor
  · exact ⟨_, _, _, _, _, _, (exists_sublink testdata.lib
      (.SubqueryExpr (.SelectStmt [testdata.field 15 "id"] (testdata.fromTable "authors")
        (.BinaryOperationExpr .EQ (testdata.column "id") (.ParamMarkerExpr 44)) [] .nil [] .nil))
      .nil fresh).1 (by rfl)⟩
  · exact (exists_sublink testdata.lib
      (.SubqueryExpr (.Other "UnionStmt"
        [.SelectStmt [testdata.field 15 "id"] (testdata.fromTable "a") .nil [] .nil [] .nil,
          .SelectStmt [testdata.field 38 "id"] (testdata.fromTable "b") .nil [] .nil [] .nil]))
      .nil fresh).2.1 (by rfl)

/-- C18: for all operands `L` and `R` and every starting context, converting
`L AND R` and converting `L OR R` give equal results and the same final
context: the boolean-combination node records no operator. -/
theorem and_or_convert_alike (lib : Lib) (L R : ExprNode) (c : cc) :
    convertBinaryOperationExpr lib .LogicAnd L R c
      = convertBinaryOperationExpr lib .LogicOr L R c ∧
    convertExprNode lib (.BinaryOperationExpr .LogicAnd L R) c
      = convertExprNode lib (.BinaryOperationExpr .LogicOr L R) c := by
  constructor <;> simp [convertBinaryOperationExpr, convertExprNode]

/-- C20: `convertColumnNameExpr` depends only on the column's own name: the
result is a column reference whose field list is the single string holding that
name, so two references with the same column name convert to equal nodes
whatever their table or schema qualifier, and the conversion leaves the context,
parameter counter included, unchanged. -/
theorem column_name_only (lib : Lib) (n m : pcast.ColumnName) (c : cc) :
    convertColumnNameExpr n = .ColumnRef (.List [.String n.Name.O]) ∧
    (n.Name = m.Name → convertColumnNameExpr n = convertColumnNameExpr m) ∧
    convertExprNode lib (.ColumnNameExpr n) c = (.ColumnRef (.List [.String n.Name.O]), c) := by
  refine ⟨rfl, ?_, rfl⟩
  intro h
  simp [convertColumnNameExpr, h]

theorem column_name_only_witness :
    convertExprNode testdata.lib (testdata.qualified "a" "name") ⟨3, []⟩
      = (.ColumnRef (.List [.String "name"]), ⟨3, []⟩) ∧
    convertColumnNameExpr ⟨testdata.ident "", testdata.ident "a", testdata.ident "name"⟩
      = convertColumnNameExpr ⟨testdata.ident "s", testdata.ident "b", testdata.ident "name"⟩ :=
  ⟨(column_name_only testdata.lib ⟨testdata.ident "", testdata.ident "a", testdata.ident "name"⟩
      ⟨testdata.ident "s", testdata.ident "b", testdata.ident "name"⟩ ⟨3, []⟩).2.2,
    (column_name_only testdata.lib ⟨testdata.ident "", testdata.ident "a", testdata.ident "name"⟩
      ⟨testdata.ident "s", testdata.ident "b", testdata.ident "name"⟩ ⟨3, []⟩).2.1 (by rfl)⟩

/-- C19: every item of the list `convertTableRefsClause` returns is a range
variable, so in `convertInsertStmt` the panic "expected range var" cannot
happen: a panic is always the one of the length check, it happens exactly when
the list does not have one item, and with one item the conversion returns. -/
theorem insert_second_panic_unreachable (lib : Lib) (n : pcast.InsertStmt) (c : cc) :
    (∀ item ∈ Items (convertTableRefsClause n.Table), ast.isRangeVar item = true) ∧
    (∀ msg, (convertInsertStmt lib n c).1 = .error msg →
      msg = "expected one range var" ∧ (Items (convertTableRefsClause n.Table)).length ≠ 1) ∧
    ((Items (convertTableRefsClause n.Table)).length = 1 →
      ∃ r, (convertInsertStmt lib n c).1 = .ok r) := by
  rw [items_convertTableRefsClause, convertInsertStmt_eq]
  refine ⟨?_, ?_, ?_⟩
  · intro item hitem
    obtain ⟨t, _, rfl⟩ := List.mem_map.1 hitem
    rfl
  · generalize pcast.tableNames n.Table.nodes = ts
    rcases ts with _ | ⟨t, _ | ⟨t', l⟩⟩
    · intro msg h
      simp only [Except.error.injEq] at h
      exact ⟨h.symm, by simp⟩
    · intro msg h
      simp at h
    · intro msg h
      simp only [Except.error.injEq] at h
      exact ⟨h.symm, by simp⟩
  · generalize pcast.tableNames n.Table.nodes = ts
    rcases ts with _ | ⟨t, _ | ⟨t', l⟩⟩ <;> simp

theorem insert_second_panic_unreachable_witness :
    (Items (convertTableRefsClause testdata.joinLeft)).length ≠ 1 ∧
    ∃ r, (convertInsertStmt testdata.lib testdata.createAuthor fresh).1 = .ok r :=
  ⟨((insert_second_panic_unreachable testdata.lib
      ⟨testdata.joinLeft, [], [], [], .nil, []⟩ fresh).2.1 "expected one range var" (by rfl)).2,
    (insert_second_panic_unreachable testdata.lib testdata.createAuthor fresh).2.2 (by decide)⟩

end dolphin

/-! ## DDL statements -/

namespace dolphin

open pcast (ExprNode ResultSetNode SelectField TableRefsClause Limit)

theorem foldl_append_singleton {α β : Type} (g : α → β) (xs : List α) (init : List β) :
    xs.foldl (fun acc x => acc ++ [g x]) init = init ++ xs.map g := by
  induction xs generalizing init with
  | nil => simp
  | cons x xs ih => rw [List.foldl_cons, ih]; simp

theorem addColumnCmds_eq (lib : Lib) (items : List ast.Node) (cols : List pcast.ColumnDef) :
    addColumnCmds lib items cols = items ++ cols.map (addColumnCmd lib) :=
  foldl_append_singleton (addColumnCmd lib) cols items

theorem alterSpecCmds_eq (lib : Lib) (items : List ast.Node) (spec : pcast.AlterTableSpec) :
    alterSpecCmds lib items spec = items ++ specCmds lib spec := by
  unfold alterSpecCmds specCmds
  cases spec.Tp <;> simp [addColumnCmds_eq]

theorem foldl_alterSpecCmds (lib : Lib) (specs : List pcast.AlterTableSpec)
    (init : List ast.Node) :
    specs.foldl (alterSpecCmds lib) init = init ++ (specs.map (specCmds lib)).flatten := by
  induction specs generalizing init with
  | nil => simp
  | cons spec specs ih =>
    rw [List.foldl_cons, ih, alterSpecCmds_eq, List.map_cons, List.flatten_cons,
      List.append_assoc]

theorem specCmds_other (lib : Lib) (spec : pcast.AlterTableSpec) (h : isOtherSpec spec = true) :
    specCmds lib spec = [] := by
  unfold isOtherSpec at h
  unfold specCmds
  cases hs : spec.Tp <;> simp [hs] at h ⊢

/-- C14: for every CREATE TABLE node the converted statement carries the table
name, the native if-not-exists flag unchanged, and exactly one column
definition per native column, in declaration order, the one at position `i`
carrying the name of native column `i`, the type name derived from its native
type, and its not-null flag; the conversion leaves the context unchanged. -/
theorem create_table_columns (lib : Lib) (n : pcast.CreateTableStmt) (c : cc) :
    ∃ cols : List ast.ColumnDef,
      convert lib (.CreateTableStmt n) c
        = (.ok (.CreateTableStmt (parseTableName n.Table) n.IfNotExists cols), c) ∧
      cols.length = n.Cols.length ∧
      ∀ (i : Nat) (d : pcast.ColumnDef), n.Cols[i]? = some d →
        cols[i]? = some ⟨lib.ColumnNameString d.Name, ⟨lib.TypeStr d.Tp.Tp⟩, isNotNull d⟩ := by
  refine ⟨n.Cols.map (fun d => ⟨lib.ColumnNameString d.Name, ⟨lib.TypeStr d.Tp.Tp⟩, isNotNull d⟩),
    ?_, by simp, ?_⟩
  · simp only [convert, convertCreateTableStmt]
    rw [foldl_append_singleton
      (fun d : pcast.ColumnDef =>
        (⟨lib.ColumnNameString d.Name, ⟨lib.TypeStr d.Tp.Tp⟩, isNotNull d⟩ : ast.ColumnDef))
      n.Cols []]
    simp
  · intro i d h
    rw [List.getElem?_map, h]
    rfl

theorem create_table_columns_witness :
    ∃ cols : List ast.ColumnDef,
      convert testdata.lib (.CreateTableStmt testdata.createAuthors) fresh
        = (.ok (.CreateTableStmt ⟨"", "authors"⟩ true cols), fresh) ∧
      cols.length = 3 ∧
      cols[0]? = some ⟨"id", ⟨"int"⟩, true⟩ ∧
      cols[1]? = some ⟨"name", ⟨"int"⟩, true⟩ ∧
      cols[2]? = some ⟨"bio", ⟨"int"⟩, false⟩ := by
  obtain ⟨cols, h1, h2, h3⟩ := create_table_columns testdata.lib testdata.createAuthors fresh
  exact ⟨cols, h1, h2,
    h3 0 (testdata.columnDef "id" 8 [⟨.ColumnOptionNotNull⟩]) (by rfl),
    h3 1 (testdata.columnDef "name" 252 [⟨.ColumnOptionNotNull⟩]) (by rfl),
    h3 2 (testdata.columnDef "bio" 252 []) (by rfl)⟩

/-- C15: for every ALTER TABLE node the converted command list is the
concatenation, in sub-command order, of one add-column command (with name, type
name and not-null flag) per new column, in order, of each add-columns
sub-command, one drop-column command naming the old column for each drop-column
sub-command, and nothing for a sub-command of any other kind; the conversion
does not fail and leaves the context unchanged.  An ALTER TABLE made only of
other kinds converts to a statement with an empty command list. -/
theorem alter_table_commands (lib : Lib) (n : pcast.AlterTableStmt) (c : cc) :
    convert lib (.AlterTableStmt n) c
      = (.ok (.AlterTableStmt (parseTableName n.Table)
          (.List (n.Specs.map (specCmds lib)).flatten)), c) ∧
    ((∀ spec ∈ n.Specs, isOtherSpec spec = true) →
      convert lib (.AlterTableStmt n) c
        = (.ok (.AlterTableStmt (parseTableName n.Table) (.List [])), c)) := by
  have h : convert lib (.AlterTableStmt n) c
      = (.ok (.AlterTableStmt (parseTableName n.Table)
          (.List (n.Specs.map (specCmds lib)).flatten)), c) := by
    simp only [convert, convertAlterTableStmt]
    rw [foldl_alterSpecCmds]
    simp
  refine ⟨h, ?_⟩
  intro hall
  rw [h]
  have key : ∀ specs : List pcast.AlterTableSpec,
      (∀ s ∈ specs, isOtherSpec s = true) → (specs.map (specCmds lib)).flatten = [] := by
    intro specs
    induction specs with
    | nil => intro _; rfl
    | cons spec specs ih =>
      intro hs
      rw [List.map_cons, List.flatten_cons,
        specCmds_other lib spec (hs spec (List.mem_cons_self _ _)),
        ih (fun s h => hs s (List.mem_cons_of_mem _ h))]
      rfl
  rw [key n.Specs hall]

theorem alter_table_commands_witness :
    convert testdata.lib (.AlterTableStmt testdata.alterAuthors) fresh
      = (.ok (.AlterTableStmt ⟨"", "authors"⟩ (.List [
          .AlterTableCmd (some "rating") .AT_AddColumn (some ⟨"rating", ⟨"int"⟩, true⟩),
          .AlterTableCmd (some "score") .AT_AddColumn (some ⟨"score", ⟨"int"⟩, false⟩),
          .AlterTableCmd (some "name") .AT_DropColumn none])), fresh) ∧
    convert testdata.lib (.AlterTableStmt testdata.alterModifyOnly) fresh
      = (.ok (.AlterTableStmt ⟨"", "authors"⟩ (.List [])), fresh) :=
  ⟨(alter_table_commands testdata.lib testdata.alterAuthors fresh).1,
    (alter_table_commands testdata.lib testdata.alterModifyOnly fresh).2 (by decide)⟩

/-- C17 fails on the code: `convert` has no rule for a DELETE statement.  The
tree of `DELETE FROM authors WHERE id = ?` holds one placeholder marker, and the
conversion returns the unsupported sentinel, with no ParamRef in it and the
context, parameter counter included, left as it was. -/
theorem delete_placeholder_not_converted (lib : Lib) :
    pcast.markerCount testdata.deleteAuthor = 1 ∧
    convert lib testdata.deleteAuthor fresh = (.ok .TODO, fresh) ∧
    resultParamRefs (convert lib testdata.deleteAuthor fresh).1 = [] :=
  ⟨by decide, rfl, rfl⟩

end dolphin

/-! ## The converted tree as a function of the native tree -/

namespace dolphin

open pcast (ExprNode ResultSetNode SelectField TableRefsClause Limit)

mutual

theorem convertExprNode_counter_only (lib : Lib) : ∀ (e : ExprNode) (c₁ c₂ : cc),
    c₁.paramCount = c₂.paramCount →
    (convertExprNode lib e c₁).1 = (convertExprNode lib e c₂).1 ∧
      (convertExprNode lib e c₁).2.paramCount = (convertExprNode lib e c₂).2.paramCount
  | .nil, c₁, c₂, h => by simpa [convertExprNode] using h
  | .ParamMarkerExpr o, c₁, c₂, h => by simp [convertExprNode, convertParamMarkerExpr, h]
  | .BinaryOperationExpr op l r, c₁, c₂, h => by
    have hl := convertExprNode_counter_only lib l c₁ c₂ h
    have hr := convertExprNode_counter_only lib r _ _ hl.2
    simp only [convertExprNode]
    split <;> simp [hl.1, hr.1, hr.2]
  | .ColumnNameExpr n, c₁, c₂, h => by simpa [convertExprNode] using h
  | .ExistsSubqueryExpr s, c₁, c₂, h => by
    have hs := convertExprNode_counter_only lib s c₁ c₂ h
    simp only [convertExprNode, hs.1]
    split <;> simp [hs.2]
  | .SubqueryExpr q, c₁, c₂, h => by
    simp only [convertExprNode]; exact convertResultSetNode_counter_only lib q c₁ c₂ h
  | .Other _ _, c₁, c₂, h => by simpa [convertExprNode] using h

theorem convertResultSetNode_counter_only (lib : Lib) : ∀ (r : ResultSetNode) (c₁ c₂ : cc),
    c₁.paramCount = c₂.paramCount →
    (convertResultSetNode lib r c₁).1 = (convertResultSetNode lib r c₂).1 ∧
      (convertResultSetNode lib r c₁).2.paramCount = (convertResultSetNode lib r c₂).2.paramCount
  | .nil, c₁, c₂, h => by simpa [convertResultSetNode] using h
  | .SelectStmt fs fr w g hv o .nil, c₁, c₂, h => by
    have h1 := convertFields_counter_only lib fs c₁ c₂ h
    have h2 := convertExprNode_counter_only lib w _ _ h1.2
    simp only [convertResultSetNode]
    simp [h1.1, h2.1, h2.2]
  | .SelectStmt fs fr w g hv o (.mk cnt off), c₁, c₂, h => by
    have h1 := convertFields_counter_only lib fs c₁ c₂ h
    have h2 := convertExprNode_counter_only lib w _ _ h1.2
    have h3 := convertExprNode_counter_only lib cnt _ _ h2.2
    have h4 := convertExprNode_counter_only lib off _ _ h3.2
    simp only [convertResultSetNode]
    simp [h1.1, h2.1, h3.1, h4.1, h4.2]
  | .Join _ _ _, c₁, c₂, h => by simpa [convertResultSetNode] using h
  | .TableSource _ _, c₁, c₂, h => by simpa [convertResultSetNode] using h
  | .TableName _ _, c₁, c₂, h => by simpa [convertResultSetNode] using h
  | .Other _ _, c₁, c₂, h => by simpa [convertResultSetNode] using h

theorem convertSelectField_counter_only (lib : Lib) : ∀ (f : SelectField) (c₁ c₂ : cc),
    c₁.paramCount = c₂.paramCount →
    (convertSelectField lib f c₁).1 = (convertSelectField lib f c₂).1 ∧
      (convertSelectField lib f c₁).2.paramCount = (convertSelectField lib f c₂).2.paramCount
  | .mk o (some w) e a, c₁, c₂, h => by simpa [convertSelectField] using h
  | .mk o none e a, c₁, c₂, h => by
    have he := convertExprNode_counter_only lib e c₁ c₂ h
    simp [convertSelectField, he.1, he.2]

theorem convertFields_counter_only (lib : Lib) : ∀ (fs : List SelectField) (c₁ c₂ : cc),
    c₁.paramCount = c₂.paramCount →
    (convertFields lib fs c₁).1 = (convertFields lib fs c₂).1 ∧
      (convertFields lib fs c₁).2.paramCount = (convertFields lib fs c₂).2.paramCount
  | [], c₁, c₂, h => by simpa [convertFields] using h
  | f :: fs, c₁, c₂, h => by
    have h1 := convertSelectField_counter_only lib f c₁ c₂ h
    have h2 := convertFields_counter_only lib fs _ _ h1.2
    simp [convertFields, h1.1, h2.1, h2.2]

end

theorem mapCtx_counter_only {α β : Type} (f : α → cc → β × cc)
    (hf : ∀ x c₁ c₂, c₁.paramCount = c₂.paramCount →
      (f x c₁).1 = (f x c₂).1 ∧ (f x c₁).2.paramCount = (f x c₂).2.paramCount)
    (xs : List α) (c₁ c₂ : cc) (h : c₁.paramCount = c₂.paramCount) :
    (mapCtx f xs c₁).1 = (mapCtx f xs c₂).1 ∧
      (mapCtx f xs c₁).2.paramCount = (mapCtx f xs c₂).2.paramCount := by
  induction xs generalizing c₁ c₂ with
  | nil => simpa [mapCtx] using h
  | cons x xs ih =>
    have h1 := hf x c₁ c₂ h
    have h2 := ih _ _ h1.2
    simp [mapCtx, h1.1, h2.1, h2.2]

theorem convertLists_counter_only (lib : Lib) (lists : List (List ExprNode)) (c₁ c₂ : cc)
    (h : c₁.paramCount = c₂.paramCount) :
    (convertLists lib lists c₁).1 = (convertLists lib lists c₂).1 ∧
      (convertLists lib lists c₁).2.paramCount = (convertLists lib lists c₂).2.paramCount := by
  rw [convertLists_eq, convertLists_eq]
  have key := mapCtx_counter_only
    (fun row c => (ast.Node.List (convertRow lib row c).1, (convertRow lib row c).2))
    (by
      intro row d₁ d₂ hd
      have hrow := mapCtx_counter_only (convertExprNode lib)
        (convertExprNode_counter_only lib) row d₁ d₂ hd
      simp only [convertRow_eq]
      simp [hrow.1, hrow.2])
    lists c₁ c₂ h
  simp [key.1, key.2]

/-- C16: the converted tree is a function of the native tree and of the value
of the parameter counter the conversion starts from, and of nothing else: two
conversions of the same tree that start from the same counter value return
structurally equal results (equal trees, or the same panic) and end at the same
counter value.  So converting a tree twice, each time with its own counter
starting at zero, yields structurally equal trees. -/
theorem convert_function_of_tree (lib : Lib) (n : pcast.Node) (c₁ c₂ : cc)
    (hcounter : c₁.paramCount = c₂.paramCount) :
    (convert lib n c₁).1 = (convert lib n c₂).1 ∧
      (convert lib n c₁).2.paramCount = (convert lib n c₂).2.paramCount := by
  cases n with
  | nil => exact ⟨rfl, hcounter⟩
  | ExprNode e =>
    have h := convertExprNode_counter_only lib e c₁ c₂ hcounter
    simp [convert, h.1, h.2]
  | ResultSetNode r =>
    have h := convertResultSetNode_counter_only lib r c₁ c₂ hcounter
    simp [convert, h.1, h.2]
  | AlterTableStmt n => exact ⟨rfl, hcounter⟩
  | CreateTableStmt n => exact ⟨rfl, hcounter⟩
  | DropTableStmt n => exact ⟨rfl, hcounter⟩
  | InsertStmt n =>
    have h := convertLists_counter_only lib n.Lists c₁ c₂ hcounter
    simp only [convert]
    rw [convertInsertStmt_eq, convertInsertStmt_eq]
    rcases pcast.tableNames n.Table.nodes with _ | ⟨t, _ | ⟨t', l⟩⟩
    · exact ⟨rfl, hcounter⟩
    · simp [h.1, h.2]
    · exact ⟨rfl, hcounter⟩
  | TableRefsClause n => exact ⟨rfl, hcounter⟩
  | SelectField n => exact ⟨rfl, hcounter⟩
  | Limit n => exact ⟨rfl, hcounter⟩
  | Other k cs => exact ⟨rfl, hcounter⟩

theorem convert_function_of_tree_witness :
    (convert testdata.lib (.ResultSetNode testdata.getAuthor) fresh).1
      = (convert testdata.lib (.ResultSetNode testdata.getAuthor) ⟨0, [⟨1, 60⟩]⟩).1 ∧
    (convert testdata.lib (.InsertStmt testdata.createAuthor) fresh).1
      = (convert testdata.lib (.InsertStmt testdata.createAuthor) ⟨0, []⟩).1 :=
  ⟨(convert_function_of_tree testdata.lib (.ResultSetNode testdata.getAuthor) fresh
      ⟨0, [⟨1, 60⟩]⟩ (by rfl)).1,
    (convert_function_of_tree testdata.lib (.InsertStmt testdata.createAuthor) fresh
      ⟨0, []⟩ (by rfl)).1⟩

end dolphin

/-! ## Numbering of the placeholders -/

namespace dolphin

open pcast (ExprNode ResultSetNode SelectField TableRefsClause Limit)

theorem length_discard (ms : List (Int × Bool)) : (discard ms).length = ms.length := by
  simp [discard]

theorem length_createdRefs (k : Nat) (ms : List (Int × Bool)) :
    (createdRefs k ms).length = ms.length := by
  induction ms generalizing k with
  | nil => rfl
  | cons m ms ih => simp [createdRefs, ih]

theorem createdRefs_append (k : Nat) (ms ns : List (Int × Bool)) :
    createdRefs k (ms ++ ns) = createdRefs k ms ++ createdRefs (k + ms.length) ns := by
  induction ms generalizing k with
  | nil => rfl
  | cons m ms ih =>
    have hk : k + 1 + ms.length = k + (ms.length + 1) := by omega
    rw [List.cons_append]
    simp only [createdRefs, List.length_cons]
    rw [ih (k + 1), hk, List.cons_append]

theorem keptRefs_append (k : Nat) (ms ns : List (Int × Bool)) :
    keptRefs k (ms ++ ns) = keptRefs k ms ++ keptRefs (k + ms.length) ns := by
  induction ms generalizing k with
  | nil => rfl
  | cons m ms ih =>
    have hk : k + 1 + ms.length = k + (ms.length + 1) := by omega
    rw [List.cons_append]
    simp only [keptRefs, List.length_cons]
    rw [ih (k + 1), hk]
    split <;> simp

theorem createdRefs_discard (k : Nat) (ms : List (Int × Bool)) :
    createdRefs k (discard ms) = createdRefs k ms := by
  induction ms generalizing k with
  | nil => rfl
  | cons m ms ih =>
    have h := ih (k + 1)
    simp only [discard] at h
    simp [discard, createdRefs, h]

theorem keptRefs_discard (k : Nat) (ms : List (Int × Bool)) : keptRefs k (discard ms) = [] := by
  induction ms generalizing k with
  | nil => rfl
  | cons m ms ih =>
    have h := ih (k + 1)
    simp only [discard] at h
    simp [discard, keptRefs, h]

theorem createdRefs_numbers (k : Nat) (ms : List (Int × Bool)) :
    (createdRefs k ms).map (fun p => p.Number) = List.range' (k + 1) ms.length := by
  induction ms generalizing k with
  | nil => rfl
  | cons m ms ih => simp [createdRefs, ih, List.range']

theorem createdRefs_locations (k : Nat) (ms : List (Int × Bool)) :
    (createdRefs k ms).map (fun p => p.Location) = ms.map (fun m => m.1) := by
  induction ms generalizing k with
  | nil => rfl
  | cons m ms ih => simp [createdRefs, ih]

theorem keptRefs_sublist (k : Nat) (ms : List (Int × Bool)) :
    (keptRefs k ms).Sublist (createdRefs k ms) := by
  induction ms generalizing k with
  | nil => exact List.Sublist.refl _
  | cons m ms ih =>
    simp only [keptRefs, createdRefs]
    split
    · exact (ih (k + 1)).cons₂ _
    · exact (ih (k + 1)).cons _

theorem keptRefs_all_kept (k : Nat) (ms : List (Int × Bool))
    (h : ms.all (fun m => m.2) = true) : keptRefs k ms = createdRefs k ms := by
  induction ms generalizing k with
  | nil => rfl
  | cons m ms ih =>
    simp only [List.all_cons, Bool.and_eq_true] at h
    simp [keptRefs, createdRefs, h.1, ih (k + 1) h.2]

theorem numbers_none (c : cc) : Numbers c [] [] c := by
  constructor
  · simp [createdRefs]
  · rfl

theorem numbers_seq {a b c : cc} {ms ns : List (Int × Bool)} {r s : List pg.ParamRef}
    (h₁ : Numbers a ms r b) (h₂ : Numbers b ns s c) : Numbers a (ms ++ ns) (r ++ s) c := by
  obtain ⟨hb, hr⟩ := h₁
  obtain ⟨hc, hs⟩ := h₂
  subst hb
  constructor
  · rw [hc, createdRefs_append, List.length_append]
    simp [Nat.add_assoc]
  · rw [hr, hs, keptRefs_append]

theorem numbers_discard {a b : cc} {ms : List (Int × Bool)} {r : List pg.ParamRef}
    (h : Numbers a ms r b) : Numbers a (discard ms) [] b := by
  obtain ⟨hb, _⟩ := h
  constructor
  · rw [hb, createdRefs_discard, length_discard]
  · rw [keptRefs_discard]

theorem convertExists_not_select (lib : Lib) (s : ExprNode) (c : cc)
    (h : convertsToSelect s = false) :
    convertExprNode lib (.ExistsSubqueryExpr s) c
      = (.SubLink .nil, (convertExprNode lib s c).2) := by
  simp only [convertExprNode]
  split
  · rename_i heq
    exact absurd heq (convertsToSelect_false lib s c h _ _ _ _ _ _)
  · rfl

mutual

theorem convertExprNode_numbers (lib : Lib) : ∀ (e : ExprNode) (c : cc),
    Numbers c (metMarkers e) (ast.paramRefs (convertExprNode lib e c).1)
      (convertExprNode lib e c).2
  | .nil, c => by
    simp only [convertExprNode, ast.paramRefs, metMarkers]; exact numbers_none c
  | .ParamMarkerExpr o, c => by
    simp only [convertExprNode, convertParamMarkerExpr, ast.paramRefs, metMarkers]
    constructor
    · simp [createdRefs]
    · simp [keptRefs]
  | .BinaryOperationExpr op l r, c => by
    have hl := convertExprNode_numbers lib l c
    have hr := convertExprNode_numbers lib r (convertExprNode lib l c).2
    have h := numbers_seq hl hr
    simp only [convertExprNode, metMarkers]
    split <;> simpa [ast.paramRefs, ast.paramRefsList] using h
  | .ColumnNameExpr n, c => by
    simp only [convertExprNode, convertColumnNameExpr, ast.paramRefs, ast.paramRefsList,
      List.append_nil, metMarkers]
    exact numbers_none c
  | .ExistsSubqueryExpr s, c => by
    have hs := convertExprNode_numbers lib s c
    cases hsel : convertsToSelect s with
    | true =>
      obtain ⟨t, f, w, lc, lo, v, heq⟩ := convertsToSelect_true lib s c hsel
      rw [heq] at hs
      simp only [convertExprNode, metMarkers, hsel, heq]
      simpa [ast.paramRefs] using hs
    | false =>
      rw [convertExists_not_select lib s c hsel]
      simpa [ast.paramRefs, metMarkers, hsel] using numbers_discard hs
  | .SubqueryExpr q, c => by
    simp only [convertExprNode, metMarkers]; exact convertResultSetNode_numbers lib q c
  | .Other _ _, c => by
    simp only [convertExprNode, ast.paramRefs, metMarkers]; exact numbers_none c

theorem convertResultSetNode_numbers (lib : Lib) : ∀ (r : ResultSetNode) (c : cc),
    Numbers c (metMarkersRS r) (ast.paramRefs (convertResultSetNode lib r c).1)
      (convertResultSetNode lib r c).2
  | .nil, c => by
    simp only [convertResultSetNode, ast.paramRefs, metMarkersRS]; exact numbers_none c
  | .SelectStmt fs fr w g h o .nil, c => by
    have h1 := convertFields_numbers lib fs c
    have h2 := convertExprNode_numbers lib w (convertFields lib fs c).2
    have h := numbers_seq h1 h2
    have hfr := convertTableRefsClause_paramRefs fr
    simp only [convertResultSetNode, metMarkersRS]
    generalize convertTableRefsClause fr = fc at hfr
    simpa [ast.paramRefs, hfr] using h
  | .SelectStmt fs fr w g h o (.mk cnt off), c => by
    have h1 := convertFields_numbers lib fs c
    have h2 := convertExprNode_numbers lib w (convertFields lib fs c).2
    have h3 := convertExprNode_numbers lib cnt (convertExprNode lib w (convertFields lib fs c).2).2
    have h4 := convertExprNode_numbers lib off
      (convertExprNode lib cnt (convertExprNode lib w (convertFields lib fs c).2).2).2
    have h := numbers_seq (numbers_seq (numbers_seq h1 h2) h3) h4
    have hfr := convertTableRefsClause_paramRefs fr
    simp only [convertResultSetNode, metMarkersRS]
    generalize convertTableRefsClause fr = fc at hfr
    simpa [ast.paramRefs, hfr] using h
  | .Join _ _ _, c => by
    simp only [convertResultSetNode, ast.paramRefs, metMarkersRS]; exact numbers_none c
  | .TableSource _ _, c => by
    simp only [convertResultSetNode, ast.paramRefs, metMarkersRS]; exact numbers_none c
  | .TableName _ _, c => by
    simp only [convertResultSetNode, ast.paramRefs, metMarkersRS]; exact numbers_none c
  | .Other _ _, c => by
    simp only [convertResultSetNode, ast.paramRefs, metMarkersRS]; exact numbers_none c

theorem convertSelectField_numbers (lib : Lib) : ∀ (f : SelectField) (c : cc),
    Numbers c (metMarkersField f) (ast.paramRefs (convertSelectField lib f c).1)
      (convertSelectField lib f c).2
  | .mk o (some w) e a, c => by
    have hw := convertWildCardField_paramRefs w
    simp only [convertSelectField, metMarkersField]
    generalize convertWildCardField w = v at hw
    simp only [ast.paramRefs, hw]
    exact numbers_none c
  | .mk o none e a, c => by
    simp only [convertSelectField, ast.paramRefs, metMarkersField]
    exact convertExprNode_numbers lib e c

theorem convertFields_numbers (lib : Lib) : ∀ (fs : List SelectField) (c : cc),
    Numbers c (metMarkersFields fs) (ast.paramRefsList (convertFields lib fs c).1)
      (convertFields lib fs c).2
  | [], c => by
    simp only [convertFields, ast.paramRefsList, metMarkersFields]; exact numbers_none c
  | f :: fs, c => by
    have h1 := convertSelectField_numbers lib f c
    have h2 := convertFields_numbers lib fs (convertSelectField lib f c).2
    simp only [convertFields, ast.paramRefsList, metMarkersFields]
    exact numbers_seq h1 h2

end

theorem mapCtx_numbers {α : Type} (f : α → cc → ast.Node × cc) (mk : α → List (Int × Bool))
    (hf : ∀ x c, Numbers c (mk x) (ast.paramRefs (f x c).1) (f x c).2) (xs : List α) (c : cc) :
    Numbers c (xs.map mk).flatten (ast.paramRefsList (mapCtx f xs c).1) (mapCtx f xs c).2 := by
  induction xs generalizing c with
  | nil => simp only [mapCtx, ast.paramRefsList, List.map_nil, List.flatten_nil]; exact numbers_none c
  | cons x xs ih =>
    simp only [mapCtx, ast.paramRefsList, List.map_cons, List.flatten_cons]
    exact numbers_seq (hf x c) (ih _)

theorem convertLists_numbers (lib : Lib) (lists : List (List ExprNode)) (c : cc) :
    Numbers c (metMarkersRows lists) (ast.paramRefs (convertLists lib lists c).1)
      (convertLists lib lists c).2 := by
  rw [convertLists_eq]
  simp only [ast.paramRefs, metMarkersRows]
  apply mapCtx_numbers
  intro row c
  simp only [ast.paramRefs, metMarkersRow]
  rw [convertRow_eq]
  exact mapCtx_numbers _ metMarkers (convertExprNode_numbers lib) row c

theorem convert_numbers (lib : Lib) (n : pcast.Node) (c : cc) :
    Numbers c (metMarkersNode n) (resultParamRefs (convert lib n c).1) (convert lib n c).2 := by
  cases n with
  | nil => exact numbers_none c
  | ExprNode e => exact convertExprNode_numbers lib e c
  | ResultSetNode r => exact convertResultSetNode_numbers lib r c
  | AlterTableStmt n =>
    simp only [convert, resultParamRefs, convertAlterTableStmt_paramRefs, metMarkersNode]
    exact numbers_none c
  | CreateTableStmt n => exact numbers_none c
  | DropTableStmt n => exact numbers_none c
  | InsertStmt n =>
    have hv := convertLists_numbers lib n.Lists c
    have hc := convertColumnNames_paramRefs n.Columns
    simp only [convert, metMarkersNode]
    rw [items_convertTableRefsClause, convertInsertStmt_eq]
    generalize convertColumnNames n.Columns = cols at hc
    rcases pcast.tableNames n.Table.nodes with _ | ⟨t, _ | ⟨t', l⟩⟩
    · exact numbers_none c
    · simpa [resultParamRefs, ast.paramRefs, ast.paramRefsList, hc] using hv
    · exact numbers_none c
  | TableRefsClause n => exact numbers_none c
  | SelectField n => exact numbers_none c
  | Limit n => exact numbers_none c
  | Other k cs => exact numbers_none c

/-- C1 does not hold as stated for the converted tree: converting
`EXISTS (?) AND ?` from a fresh context creates two ParamRef nodes, numbered 1
and 2, and ends with the counter at 2, but the node made for the operand of the
EXISTS is dropped because the operand does not convert to a SELECT, so the
converted tree holds the one ParamRef numbered 2: its numbers are not `1..N`,
neither for `N` the number of its ParamRef nodes nor for `N` the final
counter. -/
theorem exists_operand_leaves_gap :
    (resultParamRefs (convert testdata.lib (.ExprNode testdata.existsMarkerAnd) fresh).1).map
        (fun p => p.Number) = [2] ∧
    (convert testdata.lib (.ExprNode testdata.existsMarkerAnd) fresh).2.paramCount = 2 ∧
    (resultParamRefs (convert testdata.lib (.ExprNode testdata.existsMarkerAnd) fresh).1).map
        (fun p => p.Number) ≠ List.range' 1 1 ∧
    (resultParamRefs (convert testdata.lib (.ExprNode testdata.existsMarkerAnd) fresh).1).map
        (fun p => p.Number) ≠ List.range' 1 2 := by
  decide

/-- C1, amended: whatever the native tree and whatever the value `k` of the
parameter counter at the start, `convert` makes one ParamRef per placeholder it
meets, in the order it meets them; with `m` placeholders met, the counter ends
at `k + m`, and the nodes made carry exactly the numbers `k+1, ..., k+m` and
the source offset of their placeholder as Location.  The ParamRef nodes of the
returned tree are, from left to right, exactly the nodes made for the kept
placeholders, which leaves out only those below an EXISTS whose operand is no
subquery over a SELECT; so their numbers increase strictly, without repeats,
within `k+1..k+m`.  From a fresh context, when every placeholder met is kept,
the ParamRef numbers of the returned tree are exactly `1..N`, `N` being the
final counter. -/
theorem convert_paramRef_numbers (lib : Lib) (n : pcast.Node) (c : cc) :
    (convert lib n c).2.paramCount = c.paramCount + (metMarkersNode n).length ∧
    (convert lib n c).2.allocated
      = c.allocated ++ createdRefs c.paramCount (metMarkersNode n) ∧
    (createdRefs c.paramCount (metMarkersNode n)).map (fun p => p.Number)
      = List.range' (c.paramCount + 1) (metMarkersNode n).length ∧
    (createdRefs c.paramCount (metMarkersNode n)).map (fun p => p.Location)
      = (metMarkersNode n).map (fun m => m.1) ∧
    resultParamRefs (convert lib n c).1 = keptRefs c.paramCount (metMarkersNode n) ∧
    ((resultParamRefs (convert lib n c).1).map (fun p => p.Number)).Sublist
      (List.range' (c.paramCount + 1) (metMarkersNode n).length) ∧
    ((metMarkersNode n).all (fun m => m.2) = true →
      (resultParamRefs (convert lib n fresh).1).map (fun p => p.Number)
        = List.range' 1 (convert lib n fresh).2.paramCount) := by
  obtain ⟨hctx, htree⟩ := convert_numbers lib n c
  refine ⟨by rw [hctx], by rw [hctx], createdRefs_numbers _ _, createdRefs_locations _ _,
    htree, ?_, ?_⟩
  · rw [htree, ← createdRefs_numbers]
    exact (keptRefs_sublist _ _).map _
  · intro hall
    obtain ⟨hctx0, htree0⟩ := convert_numbers lib n fresh
    rw [htree0, hctx0, keptRefs_all_kept _ _ hall, createdRefs_numbers]
    simp [fresh]

theorem convert_paramRef_numbers_witness :
    (resultParamRefs (convert testdata.lib (.ResultSetNode testdata.getAuthor) fresh).1).map
        (fun p => p.Number)
      = List.range' 1 (convert testdata.lib (.ResultSetNode testdata.getAuthor) fresh).2.paramCount ∧
    resultParamRefs (convert testdata.lib (.InsertStmt testdata.createAuthor) ⟨5, []⟩).1
      = [⟨6, 40⟩, ⟨7, 43⟩] :=
  ⟨(convert_paramRef_numbers testdata.lib (.ResultSetNode testdata.getAuthor) fresh).2.2.2.2.2.2
      (by decide),
    (convert_paramRef_numbers testdata.lib (.InsertStmt testdata.createAuthor)
      ⟨5, []⟩).2.2.2.2.1⟩

end dolphin
